import Mathlib

/-!
Verification of the `Pathway` core (ephox.robin.api.general.Pathway) and its
collaborators against the repository specification.

The tree model: a `Tree` is an ordered rose tree over opaque labels; a
`Universe` is a forest of such trees.  A node handle is its `Path` — the list
of child indices leading to it from the root of its tree, with the tree's
index in the forest prepended.  This renders the spec's Universe capability
set (parent = dropLast, children = path extensions, siblings = last-index
neighbours, structural equality = path equality, containment = path prefix).
-/

namespace Robin

/-- A node handle: the index of the node's tree in the forest, followed by
the chain of child indices from that root. -/
abbrev Path := List Nat

/-- An ordered tree with opaque `Nat` labels.  The core never inspects
labels; they only make distinct nodes distinguishable. -/
inductive Tree : Type where
  | node : Nat → List Tree → Tree

/-- The ordered children list of a tree node. -/
def Tree.kids : Tree → List Tree
  | .node _ ks => ks

/-- A default tree used only to totalise lookups that are guarded by
validity hypotheses in every theorem. -/
def dummyTree : Tree := .node 0 []

/-- Child of `t` at index `m`, defaulting to `dummyTree` out of range. -/
def childD (t : Tree) (m : Nat) : Tree := (t.kids[m]?).getD dummyTree

/-- Resolve a relative path inside one tree. -/
def subT : Tree → Path → Option Tree
  | t, [] => some t
  | t, i :: p => match t.kids[i]? with
    | none => none
    | some c => subT c p

/-- Resolve a relative path inside one tree, defaulting to the dummy. -/
def subD (t : Tree) (p : Path) : Tree := (subT t p).getD dummyTree

/-- Tree-relative validity of a relative path. -/
def validT (t : Tree) (p : Path) : Prop := (subT t p).isSome = true

/-- A universe: the forest of trees the Universe collaborator navigates. -/
structure Universe : Type where
  forest : List Tree

/-- The forest packaged as a single virtual root, so that a handle is a
nonempty relative path below it. -/
def uTree (u : Universe) : Tree := .node 0 u.forest

/-- Resolve a node handle in the universe.  The empty path is not a node. -/
def subtreeAt (u : Universe) (p : Path) : Option Tree :=
  match p with
  | [] => none
  | _ => subT (uTree u) p

/-- A handle is valid when it resolves to a node of the forest. -/
def validP (u : Universe) (p : Path) : Prop := (subtreeAt u p).isSome = true

instance (u : Universe) (p : Path) : Decidable (validP u p) := by
  unfold validP; infer_instance

mutual
/-- Relative paths of all leaf descendants of a tree, in document order;
the childless tree is its own single leaf. -/
def leavesT : Tree → List Path
  | .node _ [] => [[]]
  | .node _ (k :: ks) => leavesKids (k :: ks) 0

/-- Leaves of a list of sibling subtrees whose first member has child
index `i`, each leaf path prefixed with its sibling's index. -/
def leavesKids : List Tree → Nat → List Path
  | [], _ => []
  | t :: ts, i => (leavesT t).map (i :: ·) ++ leavesKids ts (i + 1)
end

/-- All leaves of the universe, in document order. -/
def allLeaves (u : Universe) : List Path := leavesKids u.forest 0

/-- Leaf-level expansion of one node: the ordered list of its leaf
descendants (itself, if it is a leaf); empty on an invalid handle.  This is
the expansion the spec's Coverage and Simplify-soundness properties use. -/
def leafExpansion (u : Universe) (p : Path) : List Path :=
  match subtreeAt u p with
  | none => []
  | some t => (leavesT t).map (p ++ ·)

/-- Leaf-level expansion of a whole result sequence. -/
def expandAll (u : Universe) (r : List Path) : List Path :=
  r.flatMap (leafExpansion u)

/-- Tree-relative analogue of `leafExpansion`, used to reason about
subtrees. -/
def expandT (t : Tree) (q : Path) : List Path :=
  match subT t q with
  | none => []
  | some s => (leavesT s).map (q ++ ·)

/-- The first (document-order smallest) leaf of a node's subtree. -/
def firstLeaf (u : Universe) (p : Path) : Path :=
  p ++ (match subtreeAt u p with
        | none => []
        | some t => (leavesT t).headD [])

/-- The last (document-order greatest) leaf of a node's subtree. -/
def lastLeaf (u : Universe) (p : Path) : Path :=
  p ++ (match subtreeAt u p with
        | none => []
        | some t => (leavesT t).getLastD [])

/-- Strict document (preorder) order on node handles: an ancestor precedes
its descendants, and siblings compare by child index. -/
def pLt : Path → Path → Bool
  | [], [] => false
  | [], _ :: _ => true
  | _ :: _, [] => false
  | a :: as, b :: bs => decide (a < b) || (decide (a = b) && pLt as bs)

/-- Reflexive document order. -/
def pLe (a b : Path) : Bool := pLt a b || decide (a = b)

/-- Longest common prefix of two paths: the deepest common ancestor-or-self
of two handles of one forest (empty when the handles share no tree). -/
def commonPrefix : Path → Path → Path
  | a :: as, b :: bs => if a = b then a :: commonPrefix as bs else []
  | _, _ => []

/-- The error `between` signals when start and finish share no common
ancestor (disjoint trees). -/
inductive InvalidRangeError : Type where
  | invalidRange : InvalidRangeError
deriving DecidableEq

/-- Modelled from the spec: `Prune.range` (ephox.robin.pathway.Prune, not
under src/).  It ascends from `finish` collecting ancestors until the
deepest common ancestor with `start`; the boundary is `finish` plus every
ancestor of finish strictly below that common ancestor.  If the two handles
share no common ancestor it signals `InvalidRangeError`. -/
def pruneRange (_u : Universe) (s f : Path) : Except InvalidRangeError (List Path) :=
  let c := commonPrefix s f
  if c = [] then .error .invalidRange
  else .ok ((List.range (f.length - c.length)).map (fun k => f.take (f.length - k)))

/-- Modelled from the spec: the nodes covering everything strictly after
`q`'s subtree inside tree `t` — the following siblings of `q` and of each of
its ancestors, nearest level first, each taken whole (the INCLUDE_WHOLE
candidates the RIGHT phase appends after it has exhausted a level). -/
def afterCover : Tree → Path → List Path
  | _, [] => []
  | t, m :: p =>
    (afterCover (childD t m) p).map (m :: ·) ++
      (List.range' (m + 1) (t.kids.length - (m + 1))).map (fun k => [k])

/-- Modelled from the spec: the nodes covering everything strictly before
`q`'s subtree inside tree `t` — earlier siblings of each node on `q`'s
spine, outer level first. -/
def beforeCover : Tree → Path → List Path
  | _, [] => []
  | t, m :: p =>
    (List.range m).map (fun k => [k]) ++ (beforeCover (childD t m) p).map (m :: ·)

/-- Modelled from the spec: the descend-into-the-boundary walk of the RIGHT
phase below the common ancestor — at each node of finish's spine the
earlier children are taken whole (INCLUDE_WHOLE) and the spine child is
descended into (INCLUDE_PARTIAL), until `finish` itself is reached and
appended exactly once. -/
def uptoCover : Tree → Path → List Path
  | _, [] => [[]]
  | t, m :: p =>
    (List.range m).map (fun k => [k]) ++ (uptoCover (childD t m) p).map (m :: ·)

/-- LEFT-phase candidate nodes, in visit order: preceding siblings of
`start` and of each of its ancestors, nearest sibling first (`rev` is the
reversed path of the node whose level is being walked). -/
def gatherLeftGo : List Nat → List Path
  | [] => []
  | m :: revq =>
    ((List.range m).reverse).map (fun k => revq.reverse ++ [k]) ++ gatherLeftGo revq

/-- All LEFT-phase candidates for a start handle. -/
def leftCandidates (s : Path) : List Path := gatherLeftGo s.reverse

/-- Modelled from the spec: the Transform's INCLUDE_WHOLE test (ephox
Transform, not under src/) — a candidate is taken whole exactly when its
subtree lies wholly inside the span from start's first leaf to finish's
last leaf. -/
def wholeInSpan (u : Universe) (s f q : Path) : Bool :=
  pLe (firstLeaf u s) (firstLeaf u q) && pLe (lastLeaf u q) (lastLeaf u f)

/-- Modelled from the spec: the LEFT phase of `Gather.gather` (ephox
phoenix Gather, not under src/).  It walks the preceding siblings of start
and of its ancestors, appends INCLUDE_WHOLE candidates and skips EXCLUDE
candidates; INCLUDE_PARTIAL is not expected on this side (spec 4.3) and is
modelled as a skip. -/
def gatherLeft (u : Universe) (s f : Path) : List Path :=
  (leftCandidates s).filter (wholeInSpan u s f)

/-- Modelled from the spec: the RIGHT phase of `Gather.gather` (ephox
phoenix Gather, not under src/), rendered as structural recursion on the
two spines below the deepest common ancestor `c`.  `si` and `fi` are the
paths of start and finish relative to `c`.  The following siblings of
start's ancestors are INCLUDE_WHOLE; between the two spines whole siblings
are appended; on finish's spine (the pruning boundary) the walk descends
(INCLUDE_PARTIAL) and finally appends finish itself; the first EXCLUDE
candidate past the boundary stops the walk. -/
def gatherRightGo (u : Universe) (c : Path) : Path → Path → List Path
  | [], [] => []
  | si@(_ :: _), [] =>
    (afterCover ((subtreeAt u c).getD dummyTree) si).map (c ++ ·)
  | [], _ :: _ => []
  | i :: s', j :: f' =>
    if i < j then
      ((afterCover (childD ((subtreeAt u c).getD dummyTree) i) s').map (i :: ·) ++
        (List.range' (i + 1) (j - (i + 1))).map (fun k => [k]) ++
        (uptoCover (childD ((subtreeAt u c).getD dummyTree) j) f').map (j :: ·)).map (c ++ ·)
    else []

/-- The RIGHT phase entry point: decompose start and finish relative to
their deepest common ancestor and walk. -/
def gatherRight (u : Universe) (s f : Path) : List Path :=
  gatherRightGo u (commonPrefix s f) (s.drop (commonPrefix s f).length)
    (f.drop (commonPrefix s f).length)

/-- The two ordered sequences Gather produces. -/
structure GatherResult : Type where
  left : List Path
  right : List Path

/-- Modelled from the spec: `Gather.gather` produces the left-side and
right-side boundary-node sequences for the span. -/
def gather (u : Universe) (s f : Path) : GatherResult :=
  ⟨gatherLeft u s f, gatherRight u s f⟩

/-- `Pathway.between` (src/unnamed/part_000, lines 18-23): compute the
pruning boundary, run Gather, and return left ++ [start] ++ right; the
`InvalidRangeError` of Prune propagates. -/
def between (u : Universe) (s f : Path) : Except InvalidRangeError (List Path) :=
  match pruneRange u s f with
  | .error e => .error e
  | .ok _ =>
    let actual := gather u s f
    .ok (actual.left ++ [s] ++ actual.right)

/-- Parent handle: drop the last child index; a tree root (or the empty
path) has no parent. -/
def parentOf : Path → Option Path
  | [] => none
  | [_] => none
  | p@(_ :: _ :: _) => some p.dropLast

/-- The full ordered children list of a node, as handles; `none` if the
handle does not resolve (e.g. nodes of unrelated trees). -/
def childrenOf (u : Universe) (p : Path) : Option (List Path) :=
  match subtreeAt u p with
  | none => none
  | some t => some ((List.range t.kids.length).map (fun k => p ++ [k]))

/-- Longest prefix of the list whose members all have parent `pa`, plus
the remainder: the maximal contiguous same-parent run. -/
def takeRun (pa : Option Path) : List Path → List Path × List Path
  | [] => ([], [])
  | x :: xs =>
    if parentOf x = pa then
      let pr := takeRun pa xs
      (x :: pr.1, pr.2)
    else ([], x :: xs)

/-- Do two lists of handles contain the same elements (regardless of
order or multiplicity)? -/
def setEq (as bs : List Path) : Bool := as.all (bs.contains ·) && bs.all (as.contains ·)

/-- Modelled from the spec: collapse one maximal same-parent run
(ephox.robin.pathway.Simplify, not under src/) — if the run's node set
equals its parent's complete children set, the run becomes the parent;
otherwise it is kept unchanged.  Runs with no parent (tree roots, nodes of
unrelated trees) never collapse. -/
def collapseRun (u : Universe) (r : List Path) : List Path :=
  match r with
  | [] => []
  | x :: _ =>
    match parentOf x with
    | none => r
    | some p =>
      match childrenOf u p with
      | none => r
      | some cs => if setEq r cs then [p] else r

/-- One full partition-and-collapse pass over the sequence, driven by fuel
(one unit per run; the list's length always suffices). -/
def collapseGo : Nat → Universe → List Path → List Path
  | 0, _, l => l
  | _ + 1, _, [] => []
  | n + 1, u, x :: xs =>
    let pr := takeRun (parentOf x) xs
    collapseRun u (x :: pr.1) ++ collapseGo n u pr.2

/-- Modelled from the spec: one pass of Simplify — partition into maximal
contiguous same-parent runs and collapse each fully-covering run into its
parent. -/
def collapseOnce (u : Universe) (xs : List Path) : List Path :=
  collapseGo xs.length u xs

/-- Total path length of a sequence: the termination measure of Simplify's
repeat-until-fixpoint loop (every collapse strictly shrinks it). -/
def sumLen (xs : List Path) : Nat := (xs.map List.length).sum

/-- Simplify's repeat loop with explicit fuel: run passes until a pass
changes nothing. -/
def simplifyFuel : Nat → Universe → List Path → List Path
  | 0, _, xs => xs
  | n + 1, u, xs =>
    let ys := collapseOnce u xs
    if ys = xs then xs else simplifyFuel n u ys

/-- Modelled from the spec: `Simplify.simplify`
(ephox.robin.pathway.Simplify, not under src/) — repeat the
partition-and-collapse pass until no run fully covers a parent.
`sumLen xs + 1` units of fuel always reach the fixpoint, since each
changing pass strictly decreases `sumLen`.  `Pathway.simplify`
(src/unnamed/part_000, lines 28-30) delegates to this unchanged. -/
def simplify (u : Universe) (xs : List Path) : List Path :=
  simplifyFuel (sumLen xs + 1) u xs

/-- Neither node contains the other: their paths are not prefix-related.
This is the spec's coarsest-grain guarantee for Gather's sequences. -/
def nonNested (a b : Path) : Prop := ¬ a <+: b ∧ ¬ b <+: a

instance (a b : Path) : Decidable (nonNested a b) :=
  inferInstanceAs (Decidable (¬ a <+: b ∧ ¬ b <+: a))

/-- A well-formed input sequence for `simplify`, in the shape `between`
produces: strictly document-ordered, pairwise non-nested, all handles
valid. -/
def goodSeq (u : Universe) (xs : List Path) : Prop :=
  List.Chain' (fun a b => pLt a b = true) xs ∧ xs.Pairwise nonNested ∧
    ∀ p ∈ xs, validP u p

/-- The spec's validity precondition on a span: finish is reachable
forward from start in document order — either the same node, or a node
after start's whole subtree (neither containing the other), in the same
tree.  (A forward sibling-then-ancestor walk from start never descends, so
it can only meet such nodes.) -/
def Forward (u : Universe) (s f : Path) : Prop :=
  validP u s ∧ validP u f ∧
    (s = f ∨ (s.isPrefixOf f = false ∧ f.isPrefixOf s = false ∧ pLt s f = true))

instance (u : Universe) (s f : Path) : Decidable (Forward u s f) := by
  unfold Forward; infer_instance

/-- Does the slice of `r` starting at `i` of width `n` consist of exactly
the children of `q` (as a set)? -/
def sliceCovers (u : Universe) (r : List Path) (q : Path) (i n : Nat) : Bool :=
  match childrenOf u q with
  | none => false
  | some cs => setEq ((r.drop i).take n) cs

/-- Stated from the claim's words (claim C7): node `q` is fully coverable
by consecutive entries of the result `r` — some nonempty contiguous slice
of `r` has exactly `q`'s complete children set as its elements. -/
def coverableConsec (u : Universe) (r : List Path) (q : Path) : Prop :=
  ∃ i < r.length, ∃ n < r.length + 1, n ≠ 0 ∧ sliceCovers u r q i n = true

instance (u : Universe) (r : List Path) (q : Path) : Decidable (coverableConsec u r q) := by
  unfold coverableConsec; infer_instance

/-- Stated from the claim's words (claim C7): the minimality property the
claim asserts of `between`'s result — no node of the result has a parent
that is fully coverable by consecutive entries of the result. -/
def resultMinimal (u : Universe) (r : List Path) : Prop :=
  ∀ x ∈ r, ∀ q ∈ (parentOf x).toList, ¬ coverableConsec u r q

instance (u : Universe) (r : List Path) : Decidable (resultMinimal u r) := by
  unfold resultMinimal; infer_instance

/-- The spec's concrete scenario tree `P(A, B, C)`: one root with three
leaf children. -/
def exFlat : Universe := ⟨[.node 0 [.node 1 [], .node 2 [], .node 3 []]]⟩

/-- A universe of two disjoint single-node trees. -/
def exDisjoint : Universe := ⟨[.node 0 [], .node 1 []]⟩

/-- A chain universe `Q(P(L))`: each node has exactly one child. -/
def exChain : Universe := ⟨[.node 0 [.node 1 [.node 2 []]]]⟩

/-! ## Document order -/

theorem pLt_irrefl (a : Path) : pLt a a = false := by
  induction a with
  | nil => rfl
  | cons x as ih => simp [pLt, ih]

theorem pLt_trans {a b c : Path} (h1 : pLt a b = true) (h2 : pLt b c = true) :
    pLt a c = true := by
  induction a generalizing b c with
  | nil =>
    cases b with
    | nil => simp [pLt] at h1
    | cons y bs =>
      cases c with
      | nil => simp [pLt] at h2
      | cons z cs => rfl
  | cons x as ih =>
    cases b with
    | nil => simp [pLt] at h1
    | cons y bs =>
      cases c with
      | nil => simp [pLt] at h2
      | cons z cs =>
        simp only [pLt, Bool.or_eq_true, Bool.and_eq_true, decide_eq_true_eq] at h1 h2 ⊢
        rcases h1 with h1 | ⟨rfl, h1⟩
        · rcases h2 with h2 | ⟨rfl, h2⟩
          · exact Or.inl (lt_trans h1 h2)
          · exact Or.inl h1
        · rcases h2 with h2 | ⟨rfl, h2⟩
          · exact Or.inl h2
          · exact Or.inr ⟨rfl, ih h1 h2⟩

theorem pLt_asymm {a b : Path} (h : pLt a b = true) : pLt b a = false := by
  cases hba : pLt b a with
  | false => rfl
  | true =>
    have := pLt_trans h hba
    rw [pLt_irrefl] at this
    exact absurd this (by simp)

theorem pLt_ne {a b : Path} (h : pLt a b = true) : a ≠ b := by
  rintro rfl
  rw [pLt_irrefl] at h
  exact absurd h (by simp)

theorem pLt_append (p a b : Path) : pLt (p ++ a) (p ++ b) = pLt a b := by
  induction p with
  | nil => rfl
  | cons x xs ih => simp [pLt, ih]

theorem pLt_nil (a : Path) : pLt a [] = false := by cases a <;> rfl

theorem pLt_extend (a : Path) (x : Nat) (r : Path) : pLt a (a ++ x :: r) = true := by
  have := pLt_append a [] (x :: r)
  simpa using this

theorem pLt_cons_lt {x y : Nat} (h : x < y) (a b : Path) :
    pLt (x :: a) (y :: b) = true := by
  simp [pLt, h]

theorem pLt_pos {x y : Nat} (h : x < y) (p a b : Path) :
    pLt (p ++ x :: a) (p ++ y :: b) = true := by
  rw [pLt_append]
  exact pLt_cons_lt h a b

theorem pLt_total (a b : Path) : pLt a b = true ∨ a = b ∨ pLt b a = true := by
  induction a generalizing b with
  | nil => cases b with
    | nil => exact Or.inr (Or.inl rfl)
    | cons y bs => exact Or.inl rfl
  | cons x as ih =>
    cases b with
    | nil => exact Or.inr (Or.inr rfl)
    | cons y bs =>
      rcases Nat.lt_trichotomy x y with h | rfl | h
      · exact Or.inl (pLt_cons_lt h as bs)
      · rcases ih bs with h | rfl | h
        · exact Or.inl (by simp [pLt, h])
        · exact Or.inr (Or.inl rfl)
        · exact Or.inr (Or.inr (by simp [pLt, h]))
      · exact Or.inr (Or.inr (pLt_cons_lt h bs as))

theorem pLe_refl (a : Path) : pLe a a = true := by simp [pLe]

theorem pLe_of_pLt {a b : Path} (h : pLt a b = true) : pLe a b = true := by
  simp [pLe, h]

theorem pLe_iff {a b : Path} : pLe a b = true ↔ pLt a b = true ∨ a = b := by
  simp [pLe]

theorem pLt_pLe_false {a b : Path} (h : pLt a b = true) : pLe b a = false := by
  have hne : b ≠ a := fun e => pLt_ne h e.symm
  simp [pLe, pLt_asymm h, hne]

theorem pLe_pLt_trans {a b c : Path} (h1 : pLe a b = true) (h2 : pLt b c = true) :
    pLt a c = true := by
  rcases pLe_iff.mp h1 with h | rfl
  · exact pLt_trans h h2
  · exact h2

theorem pLt_pLe_trans {a b c : Path} (h1 : pLt a b = true) (h2 : pLe b c = true) :
    pLt a c = true := by
  rcases pLe_iff.mp h2 with h | rfl
  · exact pLt_trans h1 h
  · exact h1

theorem pLe_trans {a b c : Path} (h1 : pLe a b = true) (h2 : pLe b c = true) :
    pLe a c = true := by
  rcases pLe_iff.mp h1 with h | rfl
  · exact pLe_of_pLt (pLt_pLe_trans h h2)
  · exact h2

theorem pLe_append (p a b : Path) : pLe (p ++ a) (p ++ b) = pLe a b := by
  simp [pLe, pLt_append]

/-! ## Common prefixes -/

theorem commonPrefix_self (p : Path) : commonPrefix p p = p := by
  induction p with
  | nil => rfl
  | cons x xs ih => simp [commonPrefix, ih]

theorem commonPrefix_fst (s f : Path) : commonPrefix s f <+: s := by
  induction s generalizing f with
  | nil => cases f <;> simp [commonPrefix]
  | cons x xs ih =>
    cases f with
    | nil => simp [commonPrefix]
    | cons y ys =>
      by_cases h : x = y
      · subst h
        obtain ⟨t, ht⟩ := ih ys
        exact ⟨t, by simp [commonPrefix, ht]⟩
      · simp [commonPrefix, h]

theorem commonPrefix_snd (s f : Path) : commonPrefix s f <+: f := by
  induction s generalizing f with
  | nil => cases f <;> simp [commonPrefix]
  | cons x xs ih =>
    cases f with
    | nil => simp [commonPrefix]
    | cons y ys =>
      by_cases h : x = y
      · subst h
        obtain ⟨t, ht⟩ := ih ys
        exact ⟨t, by simp [commonPrefix, ht]⟩
      · simp [commonPrefix, h]

theorem commonPrefix_drop_ne (s f : Path) :
    ∀ i s' j f', s.drop (commonPrefix s f).length = i :: s' →
      f.drop (commonPrefix s f).length = j :: f' → i ≠ j := by
  induction s generalizing f with
  | nil => intro i s' j f' h1 _; simp at h1
  | cons x xs ih =>
    cases f with
    | nil => intro i s' j f' _ h2; simp at h2
    | cons y ys =>
      by_cases h : x = y
      · subst h
        intro i s' j f' h1 h2
        simp only [commonPrefix, if_pos rfl, List.length_cons, List.drop_succ_cons] at h1 h2
        exact ih ys i s' j f' h1 h2
      · intro i s' j f' h1 h2
        simp only [commonPrefix, if_neg h, List.length_nil, List.drop_zero] at h1 h2
        cases h1; cases h2
        exact h

theorem append_drop_of_pre {c s : Path} (h : c <+: s) :
    c ++ s.drop c.length = s :=
  List.prefix_iff_eq_append.mp h

/-! ## Subtree resolution -/

theorem subT_append (t : Tree) (p q : Path) :
    subT t (p ++ q) = (subT t p).bind (fun s => subT s q) := by
  induction p generalizing t with
  | nil => simp [subT]
  | cons i p ih =>
    show subT t (i :: (p ++ q)) = _
    rw [subT]
    cases h : t.kids[i]? with
    | none => simp [subT, h]
    | some c => simp [subT, h, ih]

theorem validT_of_append {t : Tree} {p q : Path} (h : validT t (p ++ q)) :
    validT t p := by
  unfold validT at *
  rw [subT_append] at h
  cases hp : subT t p with
  | none => rw [hp] at h; simp at h
  | some s => rfl

theorem subD_append {t : Tree} {p : Path} (hp : validT t p) (q : Path) :
    subD t (p ++ q) = subD (subD t p) q := by
  unfold validT at hp
  unfold subD
  rw [subT_append]
  cases h : subT t p with
  | none => rw [h] at hp; simp at hp
  | some s => simp [h]

theorem subtreeAt_eq (u : Universe) {p : Path} (hp : p ≠ []) :
    subtreeAt u p = subT (uTree u) p := by
  cases p with
  | nil => exact absurd rfl hp
  | cons a q => rfl

theorem validP_ne_nil {u : Universe} {p : Path} (h : validP u p) : p ≠ [] := by
  rintro rfl
  simp [validP, subtreeAt] at h

theorem validP_of_pre {u : Universe} {s c : Path} (hs : validP u s)
    (hpre : c <+: s) (hne : c ≠ []) : validP u c := by
  have hsne := validP_ne_nil hs
  unfold validP at *
  rw [subtreeAt_eq u hsne] at hs
  rw [subtreeAt_eq u hne]
  obtain ⟨t, rfl⟩ := hpre
  exact validT_of_append (t := uTree u) hs

/-! ## Tree induction and leaves -/

theorem tree_ind (P : Tree → Prop)
    (h : ∀ v kids, (∀ k ∈ kids, P k) → P (.node v kids)) : ∀ t, P t := by
  have main : ∀ n (t : Tree), sizeOf t ≤ n → P t := by
    intro n
    induction n with
    | zero =>
      intro t ht
      exfalso
      cases t with
      | node v ks => simp at ht
    | succ n ih =>
      intro t ht
      cases t with
      | node v ks =>
        apply h
        intro k hk
        apply ih
        have h1 := List.sizeOf_lt_of_mem hk
        have h2 : sizeOf (Tree.node v ks) = 1 + sizeOf v + sizeOf ks := by simp
        omega
  exact fun t => main (sizeOf t) t le_rfl

theorem leavesT_eq {v : Nat} {ks : List Tree} (h : ks ≠ []) :
    leavesT (.node v ks) = leavesKids ks 0 := by
  cases ks with
  | nil => exact absurd rfl h
  | cons k ks => rfl

theorem leavesKids_append (as bs : List Tree) (i : Nat) :
    leavesKids (as ++ bs) i = leavesKids as i ++ leavesKids bs (i + as.length) := by
  induction as generalizing i with
  | nil => simp [leavesKids]
  | cons a as ih =>
    show (leavesT a).map (i :: ·) ++ leavesKids (as ++ bs) (i + 1) =
      ((leavesT a).map (i :: ·) ++ leavesKids as (i + 1)) ++
        leavesKids bs (i + (a :: as).length)
    rw [ih, List.append_assoc]
    have : i + (a :: as).length = i + 1 + as.length := by
      simp only [List.length_cons]
      omega
    rw [this]

theorem mem_leavesKids {l : Path} : ∀ {ts : List Tree} {i : Nat},
    l ∈ leavesKids ts i ↔
      ∃ k t', ts[k]? = some t' ∧ ∃ l', l' ∈ leavesT t' ∧ l = (i + k) :: l' := by
  intro ts
  induction ts with
  | nil => intro i; simp [leavesKids]
  | cons t ts ih =>
    intro i
    simp only [leavesKids, List.mem_append, List.mem_map, ih]
    constructor
    · rintro (⟨l', hl', rfl⟩ | ⟨k, t', hk, l', hl', rfl⟩)
      · exact ⟨0, t, by simp, l', hl', by simp⟩
      · refine ⟨k + 1, t', by simpa using hk, l', hl', ?_⟩
        have : i + (k + 1) = i + 1 + k := by omega
        rw [this]
    · rintro ⟨k, t', hk, l', hl', rfl⟩
      cases k with
      | zero =>
        simp only [List.getElem?_cons_zero, Option.some.injEq] at hk
        subst hk
        exact Or.inl ⟨l', hl', by simp⟩
      | succ k =>
        refine Or.inr ⟨k, t', by simpa using hk, l', hl', ?_⟩
        have : i + (k + 1) = i + 1 + k := by omega
        rw [this]

theorem leavesT_ne_nil : ∀ t : Tree, leavesT t ≠ [] := by
  apply tree_ind
  intro v kids ih
  cases kids with
  | nil => simp [leavesT]
  | cons k ks =>
    show leavesKids (k :: ks) 0 ≠ []
    simp only [leavesKids]
    intro hcon
    rcases List.append_eq_nil.mp hcon with ⟨h1, _⟩
    exact ih k (by simp) (List.map_eq_nil_iff.mp h1)

theorem leavesKids_sorted {ts : List Tree}
    (h : ∀ k ∈ ts, (leavesT k).Pairwise (fun a b => pLt a b = true)) (i : Nat) :
    (leavesKids ts i).Pairwise (fun a b => pLt a b = true) := by
  induction ts generalizing i with
  | nil => simp [leavesKids]
  | cons t ts ih =>
    simp only [leavesKids]
    rw [List.pairwise_append]
    refine ⟨?_, ih (fun k hk => h k (by simp [hk])) (i + 1), ?_⟩
    · rw [List.pairwise_map]
      refine (h t (by simp)).imp ?_
      intro a b hab
      simpa [pLt] using hab
    · intro a ha b hb
      obtain ⟨a', _, rfl⟩ := List.mem_map.mp ha
      obtain ⟨k, t', _, l', _, rfl⟩ := mem_leavesKids.mp hb
      exact pLt_cons_lt (by omega) a' l'

theorem leavesT_sorted : ∀ t : Tree, (leavesT t).Pairwise (fun a b => pLt a b = true) := by
  apply tree_ind
  intro v kids ih
  cases kids with
  | nil => simp [leavesT]
  | cons k ks => exact leavesKids_sorted (fun k hk => ih k hk) 0

theorem leavesT_resolve : ∀ t : Tree, ∀ l ∈ leavesT t, ∃ w, subT t l = some (.node w []) := by
  apply tree_ind
  intro v kids ih
  cases kids with
  | nil =>
    intro l hl
    simp only [leavesT, List.mem_singleton] at hl
    subst hl
    exact ⟨v, rfl⟩
  | cons k ks =>
    intro l hl
    obtain ⟨j, t', hj, l', hl', rfl⟩ := mem_leavesKids.mp hl
    obtain ⟨w, hw⟩ := ih t' (by exact List.getElem?_mem hj) l' hl'
    refine ⟨w, ?_⟩
    show subT (Tree.node v (k :: ks)) ((0 + j) :: l') = some (.node w [])
    rw [subT]
    simp only [Tree.kids, Nat.zero_add, hj]
    exact hw

theorem leavesT_valid {t : Tree} {l : Path} (hl : l ∈ leavesT t) : validT t l := by
  obtain ⟨w, hw⟩ := leavesT_resolve t l hl
  simp [validT, hw]

/-- A leaf has no valid proper extension: any valid path extending a leaf
path is the leaf path itself. -/
theorem leaf_no_extension {t : Tree} {l q : Path} (hl : l ∈ leavesT t)
    (hq : validT t (l ++ q)) : q = [] := by
  obtain ⟨w, hw⟩ := leavesT_resolve t l hl
  unfold validT at hq
  rw [subT_append, hw] at hq
  cases q with
  | nil => rfl
  | cons x q' => simp [subT, Tree.kids] at hq

/-! ## Head and last bounds of sorted lists -/

theorem pairwise_headD {R : Path → Path → Prop} {l : List Path} {d : Path}
    (h : l.Pairwise R) {x : Path} (hx : x ∈ l) : x = l.headD d ∨ R (l.headD d) x := by
  cases l with
  | nil => simp at hx
  | cons a l =>
    rcases List.mem_cons.mp hx with rfl | hx
    · exact Or.inl rfl
    · exact Or.inr ((List.pairwise_cons.mp h).1 x hx)

theorem getLastD_mem {l : List Path} (h : l ≠ []) (d : Path) : l.getLastD d ∈ l := by
  induction l generalizing d with
  | nil => exact absurd rfl h
  | cons a l ih =>
    cases l with
    | nil => simp [List.getLastD]
    | cons b l' =>
      rw [List.getLastD_cons]
      exact List.mem_cons_of_mem a (ih (by simp) a)

theorem pairwise_getLastD {R : Path → Path → Prop} {l : List Path} {d : Path}
    (h : l.Pairwise R) {x : Path} (hx : x ∈ l) :
    x = l.getLastD d ∨ R x (l.getLastD d) := by
  induction l generalizing d with
  | nil => simp at hx
  | cons a l ih =>
    cases l with
    | nil =>
      simp only [List.mem_singleton] at hx
      subst hx
      exact Or.inl rfl
    | cons b l' =>
      rw [List.getLastD_cons]
      rcases List.mem_cons.mp hx with rfl | hx
      · refine Or.inr ?_
        exact (List.pairwise_cons.mp h).1 _ (getLastD_mem (by simp) x)
      · exact ih (List.pairwise_cons.mp h).2 hx

/-- Every leaf of a node's expansion lies between the node's first and
last leaves in document order. -/
theorem leafExpansion_bounds {u : Universe} {p l : Path}
    (hl : l ∈ leafExpansion u p) :
    pLe (firstLeaf u p) l = true ∧ pLe l (lastLeaf u p) = true := by
  unfold leafExpansion at hl
  cases hsub : subtreeAt u p with
  | none => rw [hsub] at hl; simp at hl
  | some t =>
    rw [hsub] at hl
    obtain ⟨l', hl', rfl⟩ := List.mem_map.mp hl
    unfold firstLeaf lastLeaf
    rw [hsub, pLe_append, pLe_append]
    have hs := leavesT_sorted t
    constructor
    · rcases pairwise_headD (d := []) hs hl' with h | h
      · rw [h]; exact pLe_refl _
      · exact pLe_of_pLt h
    · rcases pairwise_getLastD (d := []) hs hl' with h | h
      · rw [h]; exact pLe_refl _
      · exact pLe_of_pLt h

/-- The first leaf of a valid node is the node's path extended. -/
theorem firstLeaf_shape {u : Universe} {p : Path} :
    ∃ e, firstLeaf u p = p ++ e := by
  unfold firstLeaf
  cases subtreeAt u p <;> exact ⟨_, rfl⟩

theorem lastLeaf_shape {u : Universe} {p : Path} :
    ∃ e, lastLeaf u p = p ++ e := by
  unfold lastLeaf
  cases subtreeAt u p <;> exact ⟨_, rfl⟩

/-! ## The three-way split of a tree's leaves around a node -/

theorem childD_eq {v : Nat} {ks : List Tree} {m : Nat} (hm : m < ks.length) :
    childD (.node v ks) m = ks[m] := by
  simp [childD, Tree.kids, List.getElem?_eq_getElem hm]

theorem expandT_nil (t : Tree) : expandT t [] = leavesT t := by
  show (match subT t [] with
        | none => []
        | some s => (leavesT s).map (([] : Path) ++ ·)) = leavesT t
  rw [subT]
  simp

theorem subT_cons_eq {v : Nat} {ks : List Tree} {m : Nat} (hm : m < ks.length) (q : Path) :
    subT (.node v ks) (m :: q) = subT ks[m] q := by
  rw [subT]
  simp [Tree.kids, List.getElem?_eq_getElem hm]

theorem expandT_cons {v : Nat} {ks : List Tree} {m : Nat} (hm : m < ks.length) (q : Path) :
    expandT (.node v ks) (m :: q) = (expandT ks[m] q).map (m :: ·) := by
  unfold expandT
  rw [subT_cons_eq hm]
  cases h : subT ks[m] q with
  | none => rfl
  | some s =>
    rw [List.map_map]
    rfl

theorem leavesKids_split {ts : List Tree} : ∀ {i m : Nat} (hm : m < ts.length),
    leavesKids ts i = leavesKids (ts.take m) i ++ (leavesT ts[m]).map ((i + m) :: ·) ++
      leavesKids (ts.drop (m + 1)) (i + m + 1) := by
  induction ts with
  | nil => intro i m hm; simp at hm
  | cons t ts ih =>
    intro i m hm
    cases m with
    | zero =>
      simp only [List.take_zero, leavesKids, List.drop_succ_cons, List.drop_zero,
        List.getElem_cons_zero, Nat.add_zero, List.nil_append]
    | succ m' =>
      have hm' : m' < ts.length := by simpa using hm
      show (leavesT t).map (i :: ·) ++ leavesKids ts (i + 1) = _
      rw [ih hm']
      simp only [List.take_succ_cons, leavesKids, List.getElem_cons_succ,
        List.drop_succ_cons, List.append_assoc]
      have e1 : i + 1 + m' = i + (m' + 1) := by omega
      rw [e1]

theorem range_flatMap_before {v : Nat} {ks : List Tree} : ∀ {m : Nat}, m ≤ ks.length →
    ((List.range m).map (fun k => ([k] : Path))).flatMap (expandT (.node v ks)) =
      leavesKids (ks.take m) 0 := by
  intro m
  induction m with
  | zero => intro _; simp [leavesKids]
  | succ m ih =>
    intro hm
    have hml : m < ks.length := by omega
    rw [List.range_succ]
    simp only [List.map_append, List.flatMap_append, List.map_cons, List.map_nil,
      List.flatMap_cons, List.flatMap_nil, List.append_nil]
    rw [ih (by omega)]
    have hx : expandT (Tree.node v ks) [m] = (leavesT ks[m]).map (m :: ·) := by
      rw [show ([m] : Path) = m :: ([] : Path) from rfl, expandT_cons hml, expandT_nil]
    rw [hx, List.take_succ, List.getElem?_eq_getElem hml]
    show _ = leavesKids (List.take m ks ++ [ks[m]]) 0
    rw [leavesKids_append]
    have hlen : (List.take m ks).length = m := by
      simp [List.length_take]
      omega
    simp [leavesKids, hlen]

theorem range_flatMap_after {v : Nat} {ks : List Tree} : ∀ {n j : Nat}, ks.length - j = n →
    ((List.range' j n).map (fun k => ([k] : Path))).flatMap (expandT (.node v ks)) =
      leavesKids (ks.drop j) j := by
  intro n
  induction n with
  | zero =>
    intro j hj
    have : ks.length ≤ j := by omega
    simp [List.drop_eq_nil_of_le this, leavesKids]
  | succ n ih =>
    intro j hj
    have hjl : j < ks.length := by omega
    rw [List.range'_succ]
    simp only [List.map_cons, List.flatMap_cons]
    rw [ih (by omega)]
    have hx : expandT (Tree.node v ks) [j] = (leavesT ks[j]).map (j :: ·) := by
      rw [show ([j] : Path) = j :: ([] : Path) from rfl, expandT_cons hjl, expandT_nil]
    rw [hx, List.drop_eq_getElem_cons hjl]
    rfl

theorem validT_cons {v : Nat} {ks : List Tree} {m : Nat} {q : Path}
    (hv : validT (.node v ks) (m :: q)) : ∃ (hm : m < ks.length), validT ks[m] q := by
  unfold validT at hv
  by_cases hm : m < ks.length
  · rw [subT_cons_eq hm] at hv
    exact ⟨hm, hv⟩
  · rw [subT] at hv
    simp only [Tree.kids] at hv
    rw [List.getElem?_eq_none (by omega)] at hv
    simp at hv

theorem split_leaves : ∀ (q : Path) (t : Tree), validT t q →
    leavesT t = (beforeCover t q).flatMap (expandT t) ++ expandT t q ++
      (afterCover t q).flatMap (expandT t) := by
  intro q
  induction q with
  | nil =>
    intro t _
    simp [beforeCover, afterCover, expandT_nil]
  | cons m q' ih =>
    intro t hv
    cases t with
    | node v ks =>
      obtain ⟨hm, hv'⟩ := validT_cons hv
      have hkid : childD (Tree.node v ks) m = ks[m] := childD_eq hm
      have hmapped : ∀ L : List Path,
          (L.map (m :: ·)).flatMap (expandT (Tree.node v ks)) =
            (L.flatMap (expandT ks[m])).map (m :: ·) := by
        intro L
        rw [List.flatMap_map]
        have : (fun a => expandT (Tree.node v ks) (m :: a)) =
            (fun a => (expandT ks[m] a).map (m :: ·)) := by
          funext a
          exact expandT_cons hm a
        rw [this]
        rw [List.map_flatMap]
      show leavesT (Tree.node v ks) =
        ((List.range m).map (fun k => ([k] : Path)) ++
          (beforeCover (childD (Tree.node v ks) m) q').map (m :: ·)).flatMap
            (expandT (Tree.node v ks)) ++
        expandT (Tree.node v ks) (m :: q') ++
        ((afterCover (childD (Tree.node v ks) m) q').map (m :: ·) ++
          (List.range' (m + 1) ((Tree.node v ks).kids.length - (m + 1))).map
            (fun k => ([k] : Path))).flatMap (expandT (Tree.node v ks))
      rw [List.flatMap_append, List.flatMap_append]
      rw [range_flatMap_before (le_of_lt hm)]
      rw [show (Tree.node v ks).kids.length = ks.length from rfl]
      rw [range_flatMap_after rfl]
      rw [hkid, hmapped, hmapped, expandT_cons hm]
      have hleav : leavesT (Tree.node v ks) = leavesKids ks 0 := by
        apply leavesT_eq
        intro hnil
        rw [hnil] at hm
        simp at hm
      rw [hleav, leavesKids_split hm]
      rw [ih ks[m] hv']
      simp only [List.map_append, List.append_assoc, Nat.zero_add]

/-! ## Decomposing the covers along a path split -/

theorem subD_nil (t : Tree) : subD t [] = t := rfl

theorem subD_cons {v : Nat} {ks : List Tree} {m : Nat} (hm : m < ks.length) (p : Path) :
    subD (.node v ks) (m :: p) = subD ks[m] p := by
  unfold subD
  rw [subT_cons_eq hm]

theorem expandT_append : ∀ {p : Path} {t : Tree}, validT t p → ∀ q : Path,
    expandT t (p ++ q) = (expandT (subD t p) q).map (p ++ ·) := by
  intro p
  induction p with
  | nil =>
    intro t _ q
    show expandT t q = (expandT t q).map (([] : Path) ++ ·)
    simp
  | cons m p' ih =>
    intro t hv q
    cases t with
    | node v ks =>
      obtain ⟨hm, hv'⟩ := validT_cons hv
      show expandT (Tree.node v ks) (m :: (p' ++ q)) = _
      rw [expandT_cons hm, ih hv' q, subD_cons hm, List.map_map]
      rfl

theorem flatMap_expandT_lift {t : Tree} {p : Path} (hp : validT t p) (L : List Path) :
    (L.map (p ++ ·)).flatMap (expandT t) =
      (L.flatMap (expandT (subD t p))).map (p ++ ·) := by
  rw [List.flatMap_map]
  have : (fun a => expandT t (p ++ a)) =
      fun a => (expandT (subD t p) a).map (p ++ ·) := by
    funext a
    exact expandT_append hp a
  rw [this, List.map_flatMap]

theorem flatMap_expandT_cons {v : Nat} {ks : List Tree} {i : Nat} (hi : i < ks.length)
    (L : List Path) :
    (L.map (i :: ·)).flatMap (expandT (.node v ks)) =
      (L.flatMap (expandT ks[i])).map (i :: ·) := by
  rw [List.flatMap_map]
  have : (fun a => expandT (Tree.node v ks) (i :: a)) =
      fun a => (expandT ks[i] a).map (i :: ·) := by
    funext a
    exact expandT_cons hi a
  rw [this, List.map_flatMap]

theorem afterCover_append {p : Path} : ∀ {t : Tree}, validT t p → ∀ (q : Path),
    afterCover t (p ++ q) = (afterCover (subD t p) q).map (p ++ ·) ++ afterCover t p := by
  induction p with
  | nil =>
    intro t _ q
    show afterCover t q = (afterCover t q).map (([] : Path) ++ ·) ++ afterCover t []
    simp [afterCover]
  | cons m p' ih =>
    intro t hv q
    cases t with
    | node v ks =>
      obtain ⟨hm, hv'⟩ := validT_cons hv
      show (afterCover (childD (Tree.node v ks) m) (p' ++ q)).map (m :: ·) ++ _ = _
      rw [childD_eq hm, ih hv' q, subD_cons hm]
      simp only [afterCover, childD_eq hm, List.map_append, List.map_map,
        List.append_assoc]
      rfl

theorem beforeCover_append {p : Path} : ∀ {t : Tree}, validT t p → ∀ (q : Path),
    beforeCover t (p ++ q) = beforeCover t p ++ (beforeCover (subD t p) q).map (p ++ ·) := by
  induction p with
  | nil =>
    intro t _ q
    show beforeCover t q = beforeCover t [] ++ (beforeCover t q).map (([] : Path) ++ ·)
    simp [beforeCover]
  | cons m p' ih =>
    intro t hv q
    cases t with
    | node v ks =>
      obtain ⟨hm, hv'⟩ := validT_cons hv
      show (List.range m).map (fun k => ([k] : Path)) ++
        (beforeCover (childD (Tree.node v ks) m) (p' ++ q)).map (m :: ·) = _
      rw [childD_eq hm, ih hv' q, subD_cons hm]
      simp only [beforeCover, childD_eq hm, List.map_append, List.map_map,
        List.append_assoc]
      rfl

theorem uptoCover_eq : ∀ (q : Path) (t : Tree),
    uptoCover t q = beforeCover t q ++ [q] := by
  intro q
  induction q with
  | nil => intro t; rfl
  | cons m p ih =>
    intro t
    show (List.range m).map (fun k => ([k] : Path)) ++ (uptoCover (childD t m) p).map (m :: ·) = _
    rw [ih (childD t m)]
    simp [beforeCover, List.map_append, List.append_assoc]

/-! ## Shapes of cover members -/

theorem afterCover_shape : ∀ (q : Path) (t : Tree) (a : Path), a ∈ afterCover t q →
    ∃ pre k m rest, a = pre ++ [k] ∧ q = pre ++ m :: rest ∧ m < k := by
  intro q
  induction q with
  | nil => intro t a ha; simp [afterCover] at ha
  | cons m p ih =>
    intro t a ha
    simp only [afterCover, List.mem_append, List.mem_map] at ha
    rcases ha with ⟨a', ha', rfl⟩ | ⟨k, hk, rfl⟩
    · obtain ⟨pre, k, m', rest, rfl, hq, hlt⟩ := ih (childD t m) a' ha'
      exact ⟨m :: pre, k, m', rest, rfl, by rw [hq]; rfl, hlt⟩
    · have hk' := List.mem_range'_1.mp hk
      exact ⟨[], k, m, p, rfl, rfl, by omega⟩

theorem beforeCover_shape : ∀ (q : Path) (t : Tree) (b : Path), b ∈ beforeCover t q →
    ∃ pre k m rest, b = pre ++ [k] ∧ q = pre ++ m :: rest ∧ k < m := by
  intro q
  induction q with
  | nil => intro t b hb; simp [beforeCover] at hb
  | cons m p ih =>
    intro t b hb
    simp only [beforeCover, List.mem_append, List.mem_map] at hb
    rcases hb with ⟨k, hk, rfl⟩ | ⟨b', hb', rfl⟩
    · have hk' := List.mem_range.mp hk
      exact ⟨[], k, m, p, rfl, rfl, hk'⟩
    · obtain ⟨pre, k, m', rest, rfl, hq, hlt⟩ := ih (childD t m) b' hb'
      exact ⟨m :: pre, k, m', rest, rfl, by rw [hq]; rfl, hlt⟩

theorem gatherLeftGo_shape : ∀ (rev : List Nat) (q : Path), q ∈ gatherLeftGo rev →
    ∃ pre k m rest, q = pre ++ [k] ∧ rev.reverse = pre ++ m :: rest ∧ k < m := by
  intro rev
  induction rev with
  | nil => intro q hq; simp [gatherLeftGo] at hq
  | cons m revq ih =>
    intro q hq
    simp only [gatherLeftGo, List.mem_append, List.mem_map, List.mem_reverse] at hq
    rcases hq with ⟨k, hk, rfl⟩ | hq
    · have hk' := List.mem_range.mp hk
      exact ⟨revq.reverse, k, m, [], rfl, by simp [List.reverse_cons], hk'⟩
    · obtain ⟨pre, k, m', rest, rfl, hrev, hlt⟩ := ih q hq
      refine ⟨pre, k, m', rest ++ [m], rfl, ?_, hlt⟩
      rw [List.reverse_cons, hrev]
      simp

/-! ## The LEFT phase gathers nothing -/

theorem wholeInSpan_left_false (u : Universe) (s f q : Path)
    (hshape : ∃ pre k m rest, q = pre ++ [k] ∧ s = pre ++ m :: rest ∧ k < m) :
    wholeInSpan u s f q = false := by
  obtain ⟨pre, k, m, rest, rfl, rfl, hkm⟩ := hshape
  obtain ⟨e, he⟩ := firstLeaf_shape (u := u) (p := pre ++ [k])
  obtain ⟨e', he'⟩ := firstLeaf_shape (u := u) (p := pre ++ m :: rest)
  have h1 : pLt (firstLeaf u (pre ++ [k])) (firstLeaf u (pre ++ m :: rest)) = true := by
    rw [he, he']
    rw [List.append_assoc, List.append_assoc]
    exact pLt_pos hkm pre (([] : Path) ++ e) (rest ++ e')
  unfold wholeInSpan
  rw [pLt_pLe_false h1]
  rfl

theorem gatherLeft_eq_nil (u : Universe) (s f : Path) : gatherLeft u s f = [] := by
  unfold gatherLeft
  rw [List.filter_eq_nil_iff]
  intro q hq
  unfold leftCandidates at hq
  obtain ⟨pre, k, m, rest, hq1, hrev, hlt⟩ := gatherLeftGo_shape s.reverse q hq
  rw [List.reverse_reverse] at hrev
  simp only [Bool.not_eq_true]
  exact wholeInSpan_left_false u s f q ⟨pre, k, m, rest, hq1, hrev, hlt⟩

/-! ## Universe-level glue -/

theorem allLeaves_eq {u : Universe} (h : u.forest ≠ []) :
    allLeaves u = leavesT (uTree u) := by
  unfold allLeaves uTree
  cases hf : u.forest with
  | nil => exact absurd hf h
  | cons k ks => rw [leavesT_eq (by simp)]

theorem leafExpansion_eq {u : Universe} {p : Path} (hp : p ≠ []) :
    leafExpansion u p = expandT (uTree u) p := by
  unfold leafExpansion expandT
  rw [subtreeAt_eq u hp]

theorem validP_validT {u : Universe} {p : Path} (h : validP u p) :
    validT (uTree u) p := by
  unfold validP at h
  rw [subtreeAt_eq u (validP_ne_nil h)] at h
  exact h

theorem forest_ne_nil {u : Universe} {p : Path} (h : validP u p) :
    u.forest ≠ [] := by
  have ht := validP_validT h
  have hne := validP_ne_nil h
  cases p with
  | nil => exact absurd rfl hne
  | cons i q =>
    intro hf
    unfold validT at ht
    rw [subT] at ht
    simp only [uTree, Tree.kids, hf] at ht
    simp at ht

theorem between_eq_ok {u : Universe} {s f : Path} (h : commonPrefix s f ≠ []) :
    between u s f = .ok (gatherLeft u s f ++ [s] ++ gatherRight u s f) := by
  unfold between pruneRange gather
  simp [h]

theorem between_eq_error {u : Universe} {s f : Path} (h : commonPrefix s f = []) :
    between u s f = .error .invalidRange := by
  unfold between pruneRange
  simp [h]

theorem between_ok_ne {u : Universe} {s f : Path} {r : List Path}
    (h : between u s f = .ok r) : commonPrefix s f ≠ [] := by
  intro hc
  rw [between_eq_error hc] at h
  exact absurd h (by simp)

/-! ## Claims C2, C3, C6, C9, C10 -/

/-- C2: for every universe, start and finish, `between` returns the left
sequence produced by Gather, followed by the start node itself, followed by
the right sequence produced by Gather, in exactly that order (whenever it
returns at all). -/
theorem between_is_left_start_right (u : Universe) (s f : Path) (r : List Path)
    (h : between u s f = .ok r) :
    r = (gather u s f).left ++ [s] ++ (gather u s f).right := by
  have hc := between_ok_ne h
  rw [between_eq_ok hc] at h
  cases h
  rfl

/-- Witness for C2 on the spec's `P(A, B, C)` scenario. -/
theorem between_is_left_start_right_witness :
    ([[0,0],[0,1],[0,2]] : List Path) =
      (gather exFlat [0,0] [0,2]).left ++ [[0,0]] ++ (gather exFlat [0,0] [0,2]).right :=
  between_is_left_start_right exFlat [0,0] [0,2] [[0,0],[0,1],[0,2]] (by rfl)

/-- C3: for every universe and every node `n` of it, `between u n n`
returns exactly the one-element sequence `[n]`. -/
theorem between_degenerate (u : Universe) (n : Path) (h : validP u n) :
    between u n n = .ok [n] := by
  have hne := validP_ne_nil h
  rw [between_eq_ok (by rw [commonPrefix_self]; exact hne)]
  rw [gatherLeft_eq_nil]
  have hr : gatherRight u n n = [] := by
    unfold gatherRight
    simp [commonPrefix_self, List.drop_length, gatherRightGo]
  rw [hr]
  simp

/-- Witness for C3 on a concrete node of `P(A, B, C)`. -/
theorem between_degenerate_witness : between exFlat [0,1] [0,1] = .ok [[0,1]] :=
  between_degenerate exFlat [0,1] (by decide)

/-- C6: when start and finish are nodes of disjoint trees — no node of the
universe is an ancestor-or-self of both — `between` signals
`InvalidRangeError` instead of returning any sequence (by its `Except`
result type it returns either a complete sequence or this error, never a
partial result). -/
theorem between_disjoint_error (u : Universe) (s f : Path)
    (hs : validP u s) ( _hf : validP u f)
    (hno : ∀ a : Path, a <+: s → a <+: f → ¬ validP u a) :
    between u s f = .error .invalidRange := by
  have hc : commonPrefix s f = [] := by
    by_contra hc
    exact hno _ (commonPrefix_fst s f) (commonPrefix_snd s f)
      (validP_of_pre hs (commonPrefix_fst s f) hc)
  exact between_eq_error hc

/-- Witness for C6 on the two-tree universe. -/
theorem between_disjoint_error_witness :
    between exDisjoint [0] [1] = .error .invalidRange := by
  apply between_disjoint_error exDisjoint [0] [1] (by decide) (by decide)
  intro a h1 h2 hv
  cases a with
  | nil => exact absurd hv (by decide)
  | cons x t =>
    obtain ⟨r1, e1⟩ := h1
    obtain ⟨r2, e2⟩ := h2
    rw [List.cons_append] at e1 e2
    injection e1 with hx1 _
    injection e2 with hx2 _
    subst hx1
    exact absurd hx2 (by decide)

/-- C9: `between` and `simplify` are deterministic pure functions of the
universe state and their arguments: two invocations on equal universe
states and equal arguments return equal results.  (In this embedding both
are total functions; they cannot mutate the universe or retain state
across invocations.) -/
theorem operations_pure (u1 u2 : Universe) (s f : Path) (xs : List Path)
    (h : u1 = u2) :
    between u1 s f = between u2 s f ∧ simplify u1 xs = simplify u2 xs := by
  subst h
  exact ⟨rfl, rfl⟩

/-- Witness for C9. -/
theorem operations_pure_witness :
    between exFlat [0,0] [0,2] = between exFlat [0,0] [0,2] ∧
      simplify exFlat [[0,0]] = simplify exFlat [[0,0]] :=
  operations_pure exFlat exFlat [0,0] [0,2] [[0,0]] rfl

/-- C10: whenever `between` returns at all, its result contains the start
node — `[start]` is concatenated unconditionally — and is therefore
non-empty, even when Gather contributes empty left and right sequences. -/
theorem between_result_contains_start (u : Universe) (s f : Path) (r : List Path)
    (h : between u s f = .ok r) : s ∈ r ∧ r ≠ [] := by
  have hc := between_ok_ne h
  rw [between_eq_ok hc] at h
  cases h
  constructor
  · simp
  · simp

/-- Witness for C10 on the degenerate span, where Gather contributes
nothing. -/
theorem between_result_contains_start_witness :
    ([0,1] : Path) ∈ ([[0,1]] : List Path) ∧ ([[0,1]] : List Path) ≠ [] :=
  between_result_contains_start exFlat [0,1] [0,1] [[0,1]] (by rfl)

/-! ## Simplify: run structure -/

theorem takeRun_eq (pa : Option Path) (xs : List Path) :
    (takeRun pa xs).1 ++ (takeRun pa xs).2 = xs := by
  induction xs with
  | nil => rfl
  | cons x xs ih =>
    unfold takeRun
    by_cases h : parentOf x = pa
    · simp [h, ih]
    · simp [h]

theorem takeRun_run_parent (pa : Option Path) (xs : List Path) :
    ∀ x ∈ (takeRun pa xs).1, parentOf x = pa := by
  induction xs with
  | nil => intro x hx; simp [takeRun] at hx
  | cons y xs ih =>
    intro x hx
    unfold takeRun at hx
    by_cases h : parentOf y = pa
    · simp only [if_pos h] at hx
      rcases List.mem_cons.mp hx with rfl | hx
      · exact h
      · exact ih x hx
    · simp [if_neg h] at hx

theorem takeRun_rest (pa : Option Path) (xs : List Path) :
    (takeRun pa xs).2 = [] ∨
      ∃ y ys, (takeRun pa xs).2 = y :: ys ∧ parentOf y ≠ pa := by
  induction xs with
  | nil => exact Or.inl rfl
  | cons y xs ih =>
    unfold takeRun
    by_cases h : parentOf y = pa
    · simpa [h] using ih
    · exact Or.inr ⟨y, xs, by simp [h], h⟩

theorem takeRun_rest_len (pa : Option Path) (xs : List Path) :
    (takeRun pa xs).2.length ≤ xs.length := by
  have h := takeRun_eq pa xs
  have := congrArg List.length h
  simp only [List.length_append] at this
  omega

theorem collapseGo_fuel (u : Universe) :
    ∀ n m (xs : List Path), xs.length ≤ n → xs.length ≤ m →
      collapseGo n u xs = collapseGo m u xs := by
  intro n
  induction n with
  | zero =>
    intro m xs hn _
    have : xs = [] := List.eq_nil_of_length_eq_zero (by omega)
    subst this
    cases m <;> rfl
  | succ n ih =>
    intro m xs hn hm
    cases xs with
    | nil => cases m <;> rfl
    | cons x xs' =>
      cases m with
      | zero => simp at hm
      | succ m' =>
        show collapseRun u (x :: (takeRun (parentOf x) xs').1) ++
            collapseGo n u (takeRun (parentOf x) xs').2 =
          collapseRun u (x :: (takeRun (parentOf x) xs').1) ++
            collapseGo m' u (takeRun (parentOf x) xs').2
        have hlen := takeRun_rest_len (parentOf x) xs'
        simp only [List.length_cons] at hn hm
        rw [ih m' (takeRun (parentOf x) xs').2 (by omega) (by omega)]

theorem collapseOnce_nil (u : Universe) : collapseOnce u [] = [] := rfl

theorem collapseOnce_cons (u : Universe) (x : Path) (xs : List Path) :
    collapseOnce u (x :: xs) =
      collapseRun u (x :: (takeRun (parentOf x) xs).1) ++
        collapseOnce u (takeRun (parentOf x) xs).2 := by
  show collapseGo (x :: xs).length u (x :: xs) = _
  simp only [List.length_cons]
  show collapseRun u (x :: (takeRun (parentOf x) xs).1) ++
      collapseGo xs.length u (takeRun (parentOf x) xs).2 = _
  rw [collapseGo_fuel u xs.length (takeRun (parentOf x) xs).2.length _
    (takeRun_rest_len (parentOf x) xs) le_rfl]
  rfl

/-- Induction along the run decomposition of a sequence. -/
theorem runs_induction (P : List Path → Prop) (h0 : P [])
    (h1 : ∀ x xs, P (takeRun (parentOf x) xs).2 → P (x :: xs)) :
    ∀ xs, P xs := by
  have main : ∀ n (xs : List Path), xs.length ≤ n → P xs := by
    intro n
    induction n with
    | zero =>
      intro xs h
      have : xs = [] := List.eq_nil_of_length_eq_zero (by omega)
      subst this
      exact h0
    | succ n ih =>
      intro xs h
      cases xs with
      | nil => exact h0
      | cons x xs' =>
        apply h1
        apply ih
        have := takeRun_rest_len (parentOf x) xs'
        simp only [List.length_cons] at h
        omega
  exact fun xs => main xs.length xs le_rfl

theorem collapseRun_none {u : Universe} {x : Path} {t : List Path}
    (hp : parentOf x = none) : collapseRun u (x :: t) = x :: t := by
  show (match parentOf x with
        | none => x :: t
        | some p =>
          match childrenOf u p with
          | none => x :: t
          | some cs => if setEq (x :: t) cs = true then [p] else x :: t) = x :: t
  rw [hp]

theorem collapseRun_some {u : Universe} {x : Path} {t : List Path} {p : Path}
    (hp : parentOf x = some p) :
    collapseRun u (x :: t) =
      match childrenOf u p with
      | none => x :: t
      | some cs => if setEq (x :: t) cs = true then [p] else x :: t := by
  show (match parentOf x with
        | none => x :: t
        | some p =>
          match childrenOf u p with
          | none => x :: t
          | some cs => if setEq (x :: t) cs = true then [p] else x :: t) = _
  rw [hp]

theorem collapseRun_cases (u : Universe) (r : List Path) :
    collapseRun u r = r ∨
      ∃ x t p cs, r = x :: t ∧ parentOf x = some p ∧ childrenOf u p = some cs ∧
        setEq r cs = true ∧ collapseRun u r = [p] := by
  cases r with
  | nil => exact Or.inl rfl
  | cons x t =>
    cases hp : parentOf x with
    | none => exact Or.inl (collapseRun_none hp)
    | some p =>
      rw [collapseRun_some hp]
      cases hc : childrenOf u p with
      | none => exact Or.inl rfl
      | some cs =>
        by_cases hs : setEq (x :: t) cs = true
        · refine Or.inr ⟨x, t, p, cs, rfl, hp, hc, hs, ?_⟩
          show (if setEq (x :: t) cs = true then [p] else x :: t) = [p]
          rw [if_pos hs]
        · left
          show (if setEq (x :: t) cs = true then [p] else x :: t) = x :: t
          rw [if_neg hs]

theorem sumLen_append (a b : List Path) : sumLen (a ++ b) = sumLen a + sumLen b := by
  simp [sumLen]

theorem setEq_mem {as bs : List Path} (h : setEq as bs = true) :
    (∀ x ∈ as, x ∈ bs) ∧ (∀ x ∈ bs, x ∈ as) := by
  unfold setEq at h
  rw [Bool.and_eq_true, List.all_eq_true, List.all_eq_true] at h
  obtain ⟨h1, h2⟩ := h
  constructor
  · intro x hx
    have := h1 x hx
    simpa [List.elem_iff] using this
  · intro x hx
    have := h2 x hx
    simpa [List.elem_iff] using this

theorem childrenOf_shape {u : Universe} {p : Path} {cs : List Path}
    (h : childrenOf u p = some cs) :
    ∃ t, subtreeAt u p = some t ∧ cs = (List.range t.kids.length).map (fun k => p ++ [k]) := by
  unfold childrenOf at h
  cases ht : subtreeAt u p with
  | none => rw [ht] at h; simp at h
  | some t =>
    rw [ht] at h
    simp only [Option.some.injEq] at h
    exact ⟨t, rfl, h.symm⟩

theorem collapseRun_sumLen {u : Universe} {r : List Path} {x : Path} {t : List Path}
    {p : Path} {cs : List Path} (hr : r = x :: t) (hp : parentOf x = some p)
    (hc : childrenOf u p = some cs) (hs : setEq r cs = true) :
    sumLen [p] < sumLen r := by
  obtain ⟨tr, _, hcs⟩ := childrenOf_shape hc
  have hmem : x ∈ cs := (setEq_mem hs).1 x (by rw [hr]; simp)
  have hxlen : x.length = p.length + 1 := by
    rw [hcs] at hmem
    obtain ⟨k, _, rfl⟩ := List.mem_map.mp hmem
    simp
  rw [hr]
  show sumLen [p] < sumLen (x :: t)
  have h1 : sumLen [p] = p.length := by simp [sumLen]
  have h2 : sumLen (x :: t) = x.length + sumLen t := by simp [sumLen]
  omega

theorem collapseRun_sumLen_le (u : Universe) (r : List Path) :
    sumLen (collapseRun u r) ≤ sumLen r := by
  rcases collapseRun_cases u r with h | ⟨x, t, p, cs, hr, hp, hc, hs, h⟩
  · rw [h]
  · rw [h]
    exact le_of_lt (collapseRun_sumLen hr hp hc hs)

theorem collapseOnce_sumLen (u : Universe) :
    ∀ xs, collapseOnce u xs = xs ∨ sumLen (collapseOnce u xs) < sumLen xs := by
  apply runs_induction
  · exact Or.inl (collapseOnce_nil u)
  · intro x xs ih
    rw [collapseOnce_cons]
    set pr := takeRun (parentOf x) xs with hpr
    have hsplit : (x :: pr.1) ++ pr.2 = x :: xs := by
      show x :: (pr.1 ++ pr.2) = x :: xs
      rw [takeRun_eq]
    rcases collapseRun_cases u (x :: pr.1) with hcr | ⟨y, t, p, cs, hr, hp, hc, hs, hcr⟩
    · rcases ih with ih | ih
      · rw [hcr, ih, hsplit]
        exact Or.inl rfl
      · right
        rw [hcr, sumLen_append]
        rw [← hsplit, sumLen_append]
        omega
    · right
      have hlt : sumLen [p] < sumLen (x :: pr.1) := collapseRun_sumLen hr hp hc hs
      have hle : sumLen (collapseOnce u pr.2) ≤ sumLen pr.2 := by
        rcases ih with ih | ih
        · rw [ih]
        · exact le_of_lt ih
      rw [hcr, sumLen_append, ← hsplit, sumLen_append]
      omega

theorem simplifyFuel_fix (u : Universe) :
    ∀ n (xs : List Path), sumLen xs < n →
      collapseOnce u (simplifyFuel n u xs) = simplifyFuel n u xs := by
  intro n
  induction n with
  | zero => intro xs h; omega
  | succ n ih =>
    intro xs h
    have hunf : simplifyFuel (n + 1) u xs =
        if collapseOnce u xs = xs then xs else simplifyFuel n u (collapseOnce u xs) := rfl
    rw [hunf]
    by_cases hfix : collapseOnce u xs = xs
    · simp only [if_pos hfix]
      exact hfix
    · simp only [if_neg hfix]
      apply ih
      rcases collapseOnce_sumLen u xs with hcon | hlt
      · exact absurd hcon hfix
      · omega

/-! ## Claims C4 and C8 -/

/-- C4: simplify is idempotent — for every universe and every sequence of
nodes, `simplify u (simplify u xs) = simplify u xs` (proved for all
sequences, in particular for every ordered sequence of nodes from one
tree). -/
theorem simplify_idempotent (u : Universe) (xs : List Path) :
    simplify u (simplify u xs) = simplify u xs := by
  have hfix : collapseOnce u (simplify u xs) = simplify u xs :=
    simplifyFuel_fix u (sumLen xs + 1) xs (by omega)
  show simplifyFuel (sumLen (simplify u xs) + 1) u (simplify u xs) = simplify u xs
  show (if collapseOnce u (simplify u xs) = simplify u xs then simplify u xs
        else simplifyFuel (sumLen (simplify u xs)) u (collapseOnce u (simplify u xs))) = _
  simp [hfix]

/-- C8: a run consisting of exactly one node `p` whose parent `q` has
exactly one child collapses into that parent, and the collapse recurses
upward: simplifying `[p]` is the same as simplifying `[q]`, which in turn
collapses further until a parent with additional children outside the run
is found (a run that does not cover all children never collapses, by
`collapseRun`'s set-equality test). -/
theorem simplify_single_child_collapse (u : Universe) (q p : Path)
    (h : childrenOf u q = some [p]) : simplify u [p] = simplify u [q] := by
  obtain ⟨t, hq, hcs⟩ := childrenOf_shape h
  have hqne : q ≠ [] := by
    intro hq0
    rw [hq0] at hq
    simp [subtreeAt] at hq
  have hlen : t.kids.length = 1 := by
    have := congrArg List.length hcs
    simpa using this.symm
  have hp : p = q ++ [0] := by
    rw [hlen, show List.range 1 = [0] from rfl] at hcs
    simpa using hcs
  have hpar : parentOf p = some q := by
    rw [hp]
    cases q with
    | nil => exact absurd rfl hqne
    | cons a q' =>
      cases hr : q' ++ [0] with
      | nil => simp at hr
      | cons b tl =>
        show parentOf (a :: (q' ++ [0])) = some (a :: q')
        rw [hr]
        show some (a :: b :: tl).dropLast = some (a :: q')
        rw [← hr]
        rw [show a :: (q' ++ [0]) = (a :: q') ++ [0] from rfl]
        rw [List.dropLast_concat]
  have hco : collapseOnce u [p] = [q] := by
    rw [collapseOnce_cons]
    show collapseRun u [p] ++ collapseOnce u [] = [q]
    rw [collapseOnce_nil, List.append_nil]
    rw [collapseRun_some hpar, h]
    have hset : setEq [p] [p] = true := by simp [setEq, List.elem_iff]
    show (if setEq [p] [p] = true then [q] else [p]) = [q]
    rw [if_pos hset]
  have hne : ([q] : List Path) ≠ [p] := by
    intro he
    have : q = p := by simpa using he
    rw [hp] at this
    have := congrArg List.length this
    simp at this
  show simplifyFuel (sumLen [p] + 1) u [p] = _
  have hsl : sumLen [p] = q.length + 1 := by simp [sumLen, hp]
  rw [hsl]
  show (if collapseOnce u [p] = [p] then [p]
        else simplifyFuel (q.length + 1) u (collapseOnce u [p])) = _
  rw [hco, if_neg (by rw [hco] at *; exact fun he => hne he)]
  show simplifyFuel (q.length + 1) u [q] = simplify u [q]
  have : sumLen [q] = q.length := by simp [sumLen]
  show simplifyFuel (q.length + 1) u [q] = simplifyFuel (sumLen [q] + 1) u [q]
  rw [this]

/-- Witness for C8 on the chain universe `Q(P(L))`: the leaf's run
collapses into its only-child parent and recurses to the root. -/
theorem simplify_single_child_collapse_witness :
    simplify exChain [[0,0]] = simplify exChain [[0]] :=
  simplify_single_child_collapse exChain [0] [0,0] (by rfl)

/-! ## Coverage helpers -/

theorem pLt_shape {a b p : Path} {k m : Nat} {x y : Path}
    (ha : a = p ++ k :: x) (hb : b = p ++ m :: y) (h : k < m) : pLt a b = true := by
  subst ha
  subst hb
  exact pLt_pos h p x y

theorem span_first_false {u : Universe} {s f l : Path}
    (h : pLt l (firstLeaf u s) = true) :
    (pLe (firstLeaf u s) l && pLe l (lastLeaf u f)) = false := by
  rw [pLt_pLe_false h, Bool.false_and]

theorem span_second_false {u : Universe} {s f l : Path}
    (h : pLt (lastLeaf u f) l = true) :
    (pLe (firstLeaf u s) l && pLe l (lastLeaf u f)) = false := by
  rw [pLt_pLe_false h, Bool.and_false]

theorem map_map_cons (L : List Path) (c : Path) (i : Nat) :
    (L.map (i :: ·)).map (c ++ ·) = L.map ((c ++ [i]) ++ ·) := by
  rw [List.map_map]
  apply List.map_congr_left
  intro x _
  show c ++ (i :: x) = (c ++ [i]) ++ x
  simp

theorem subD_single {v : Nat} {ks : List Tree} {i : Nat} (hi : i < ks.length) :
    subD (.node v ks) [i] = ks[i] := by
  unfold subD
  rw [subT_cons_eq hi]
  rfl

theorem expandT_mem_shape {t : Tree} {b l : Path} (h : l ∈ expandT t b) :
    ∃ e, l = b ++ e := by
  unfold expandT at h
  cases hs : subT t b with
  | none => rw [hs] at h; simp at h
  | some s =>
    rw [hs] at h
    obtain ⟨e, _, rfl⟩ := List.mem_map.mp h
    exact ⟨e, rfl⟩

theorem commonPrefix_of_append_ne {i j : Nat} (h : i ≠ j) :
    ∀ (c a b : Path), commonPrefix (c ++ i :: a) (c ++ j :: b) = c := by
  intro c
  induction c with
  | nil => intro a b; simp [commonPrefix, h]
  | cons x c' ih => intro a b; simp [commonPrefix, ih]

theorem expandAll_append (u : Universe) (a b : List Path) :
    expandAll u (a ++ b) = expandAll u a ++ expandAll u b := by
  unfold expandAll
  rw [List.flatMap_append]

theorem expandAll_eq_expandT {u : Universe} {L : List Path}
    (h : ∀ x ∈ L, x ≠ []) : expandAll u L = L.flatMap (expandT (uTree u)) := by
  induction L with
  | nil => rfl
  | cons x L ih =>
    show leafExpansion u x ++ expandAll u L = expandT (uTree u) x ++ L.flatMap (expandT (uTree u))
    rw [leafExpansion_eq (h x (by simp)), ih (fun y hy => h y (by simp [hy]))]

theorem filter_partition {P : Path → Bool} {X M Y A : List Path}
    (hA : A = X ++ M ++ Y) (hX : ∀ l ∈ X, P l = false)
    (hM : ∀ l ∈ M, P l = true) (hY : ∀ l ∈ Y, P l = false) :
    A.filter P = M := by
  subst hA
  rw [List.filter_append, List.filter_append]
  rw [List.filter_eq_nil_iff.mpr (by intro a ha; simp [hX a ha])]
  rw [List.filter_eq_self.mpr hM]
  rw [List.filter_eq_nil_iff.mpr (by intro a ha; simp [hY a ha])]
  simp

/-- Coverage for the degenerate span: the expansion of `[n]` is exactly the
slice of the document's leaves between `n`'s first and last leaf. -/
theorem coverage_self {u : Universe} {n : Path} (hn : validP u n) :
    expandAll u [n] = (allLeaves u).filter
      (fun l => pLe (firstLeaf u n) l && pLe l (lastLeaf u n)) := by
  have hne := validP_ne_nil hn
  have ht := validP_validT hn
  have hsplit := split_leaves n (uTree u) ht
  have hexp : expandAll u [n] = expandT (uTree u) n := by
    show leafExpansion u n ++ [] = _
    rw [List.append_nil, leafExpansion_eq hne]
  rw [hexp]
  symm
  apply filter_partition (X := (beforeCover (uTree u) n).flatMap (expandT (uTree u)))
    (Y := (afterCover (uTree u) n).flatMap (expandT (uTree u)))
  · rw [allLeaves_eq (forest_ne_nil hn)]
    exact hsplit
  · intro l hl
    obtain ⟨b, hb, hlb⟩ := List.mem_flatMap.mp hl
    obtain ⟨pre, k, m, rest, rfl, hs, hkm⟩ := beforeCover_shape n (uTree u) b hb
    obtain ⟨e, rfl⟩ := expandT_mem_shape hlb
    obtain ⟨es, hfs⟩ := firstLeaf_shape (u := u) (p := n)
    apply span_first_false
    apply pLt_shape (p := pre) (k := k) (m := m) (x := e) (y := rest ++ es) _ _ hkm
    · simp
    · rw [hfs, hs]
      simp
  · intro l hl
    rw [← leafExpansion_eq hne] at hl
    have := leafExpansion_bounds hl
    simp [this.1, this.2]
  · intro l hl
    obtain ⟨a, ha, hla⟩ := List.mem_flatMap.mp hl
    obtain ⟨pre, k, m, rest, rfl, hs, hmk⟩ := afterCover_shape n (uTree u) a ha
    obtain ⟨e, rfl⟩ := expandT_mem_shape hla
    obtain ⟨es, hls⟩ := lastLeaf_shape (u := u) (p := n)
    apply span_second_false
    apply pLt_shape (p := pre) (k := m) (m := k) (x := rest ++ es) (y := e) _ _ hmk
    · rw [hls, hs]
      simp
    · simp

/-- Coverage for a proper span: start and finish are different children
subtrees of their deepest common ancestor, with start's child index before
finish's; the expansion of `[start] ++ Gather's right sequence` is exactly
the slice of the document's leaves from start's first leaf to finish's
last leaf. -/
theorem coverage_main {u : Universe} {c : Path} {i j : Nat} {s' f' : Path}
    (hvs : validP u (c ++ i :: s')) (hvf : validP u (c ++ j :: f'))
    (hij : i < j) (hcne : c ≠ []) :
    expandAll u ([c ++ i :: s'] ++ gatherRight u (c ++ i :: s') (c ++ j :: f')) =
      (allLeaves u).filter (fun l =>
        pLe (firstLeaf u (c ++ i :: s')) l && pLe l (lastLeaf u (c ++ j :: f'))) := by
  have hij_ne : i ≠ j := Nat.ne_of_lt hij
  have hcp : commonPrefix (c ++ i :: s') (c ++ j :: f') = c :=
    commonPrefix_of_append_ne hij_ne c s' f'
  have hvc : validP u c := validP_of_pre hvs ⟨i :: s', rfl⟩ hcne
  have hvc' : (subtreeAt u c).isSome = true := hvc
  obtain ⟨tc, htc⟩ := Option.isSome_iff_exists.mp hvc'
  cases tc with
  | node vc ksc =>
  have htc' : subT (uTree u) c = some (.node vc ksc) := by
    rw [← subtreeAt_eq u hcne]
    exact htc
  have hsubDc : subD (uTree u) c = .node vc ksc := by
    unfold subD
    rw [htc']
    rfl
  have hts : validT (uTree u) (c ++ i :: s') := validP_validT hvs
  have htf : validT (uTree u) (c ++ j :: f') := validP_validT hvf
  have htcv : validT (uTree u) c := by
    unfold validT
    rw [htc']
    rfl
  have hsi : validT (.node vc ksc) (i :: s') := by
    unfold validT at hts ⊢
    rw [subT_append, htc'] at hts
    exact hts
  have hfi : validT (.node vc ksc) (j :: f') := by
    unfold validT at htf ⊢
    rw [subT_append, htc'] at htf
    exact htf
  obtain ⟨hi, hvs'⟩ := validT_cons hsi
  obtain ⟨hj, hvf'⟩ := validT_cons hfi
  have hvci : validT (uTree u) (c ++ [i]) := by
    apply validT_of_append (q := s')
    rw [show (c ++ [i]) ++ s' = c ++ i :: s' by simp]
    exact hts
  have hvcj : validT (uTree u) (c ++ [j]) := by
    apply validT_of_append (q := f')
    rw [show (c ++ [j]) ++ f' = c ++ j :: f' by simp]
    exact htf
  have hsubDci : subD (uTree u) (c ++ [i]) = ksc[i] := by
    rw [subD_append htcv [i], hsubDc, subD_single hi]
  have hsubDcj : subD (uTree u) (c ++ [j]) = ksc[j] := by
    rw [subD_append htcv [j], hsubDc, subD_single hj]
  obtain ⟨es, hfs⟩ := firstLeaf_shape (u := u) (p := c ++ i :: s')
  obtain ⟨ef, hlf⟩ := lastLeaf_shape (u := u) (p := c ++ j :: f')
  -- unfold gatherRight on this configuration
  have hgr : gatherRight u (c ++ i :: s') (c ++ j :: f') =
      ((afterCover ksc[i] s').map (i :: ·) ++
        (List.range' (i + 1) (j - (i + 1))).map (fun k => ([k] : Path)) ++
        (uptoCover ksc[j] f').map (j :: ·)).map (c ++ ·) := by
    unfold gatherRight
    rw [hcp, List.drop_left, List.drop_left]
    simp only [gatherRightGo, if_pos hij, htc, Option.getD_some, childD_eq hi, childD_eq hj]
  -- the middle: expansion of [start] ++ right sequence, in normal form
  have hEf : leafExpansion u (c ++ j :: f') = (expandT ksc[j] f').map ((c ++ [j]) ++ ·) := by
    rw [leafExpansion_eq (by simp)]
    have h := expandT_append hvcj f'
    rw [hsubDcj] at h
    rw [show (c ++ [j]) ++ f' = c ++ j :: f' by simp] at h
    exact h
  have hmid : expandAll u ([c ++ i :: s'] ++ gatherRight u (c ++ i :: s') (c ++ j :: f')) =
      expandT (uTree u) (c ++ i :: s') ++
      ((afterCover ksc[i] s').flatMap (expandT ksc[i])).map ((c ++ [i]) ++ ·) ++
      (((List.range' (i + 1) (j - (i + 1))).map (fun k => ([k] : Path))).flatMap
        (expandT (.node vc ksc))).map (c ++ ·) ++
      ((beforeCover ksc[j] f').flatMap (expandT ksc[j])).map ((c ++ [j]) ++ ·) ++
      (expandT ksc[j] f').map ((c ++ [j]) ++ ·) := by
    rw [expandAll_append]
    have h1 : expandAll u [c ++ i :: s'] = expandT (uTree u) (c ++ i :: s') := by
      show leafExpansion u (c ++ i :: s') ++ [] = _
      rw [List.append_nil, leafExpansion_eq (by simp)]
    rw [h1, hgr]
    have hne_el : ∀ x ∈ ((afterCover ksc[i] s').map (i :: ·) ++
        (List.range' (i + 1) (j - (i + 1))).map (fun k => ([k] : Path)) ++
        (uptoCover ksc[j] f').map (j :: ·)).map (c ++ ·), x ≠ [] := by
      intro x hx
      obtain ⟨z, _, rfl⟩ := List.mem_map.mp hx
      intro hcon
      rcases List.append_eq_nil.mp hcon with ⟨h1, _⟩
      exact hcne h1
    rw [expandAll_eq_expandT hne_el]
    rw [flatMap_expandT_lift htcv, hsubDc]
    rw [List.flatMap_append, List.flatMap_append]
    rw [flatMap_expandT_cons hi, flatMap_expandT_cons hj]
    rw [uptoCover_eq f' ksc[j], List.flatMap_append]
    simp only [List.flatMap_cons, List.flatMap_nil, List.append_nil, List.map_append,
      map_map_cons, List.append_assoc]
  -- the three-way split of all leaves around the span
  have hrange : List.range' (i + 1) (ksc.length - (i + 1)) =
      List.range' (i + 1) (j - (i + 1)) ++ List.range' j (ksc.length - j) := by
    have h := List.range'_append (i + 1) (j - (i + 1)) (ksc.length - j) 1
    rw [show (i + 1) + 1 * (j - (i + 1)) = j by omega] at h
    rw [show (ksc.length - j) + (j - (i + 1)) = ksc.length - (i + 1) by omega] at h
    exact h.symm
  have hrange2 : List.range' j (ksc.length - j) =
      j :: List.range' (j + 1) (ksc.length - (j + 1)) := by
    rw [show ksc.length - j = (ksc.length - (j + 1)) + 1 by omega, List.range'_succ]
  have hEj : expandT (.node vc ksc) [j] = (leavesT ksc[j]).map (j :: ·) := by
    rw [show ([j] : Path) = j :: ([] : Path) from rfl, expandT_cons hj, expandT_nil]
  have hlj : leavesT ksc[j] =
      (beforeCover ksc[j] f').flatMap (expandT ksc[j]) ++ expandT ksc[j] f' ++
        (afterCover ksc[j] f').flatMap (expandT ksc[j]) :=
    split_leaves f' ksc[j] hvf'
  have haft1 : afterCover (uTree u) (c ++ i :: s') =
      (afterCover ksc[i] s').map ((c ++ [i]) ++ ·) ++ afterCover (uTree u) (c ++ [i]) := by
    have h := afterCover_append (p := c ++ [i]) hvci s'
    rw [hsubDci, show (c ++ [i]) ++ s' = c ++ i :: s' by simp] at h
    exact h
  have haft3 : afterCover (.node vc ksc) [i] =
      (List.range' (i + 1) (ksc.length - (i + 1))).map (fun k => ([k] : Path)) := by
    show (afterCover (childD (.node vc ksc) i) []).map (i :: ·) ++
      (List.range' (i + 1) ((Tree.node vc ksc).kids.length - (i + 1))).map
        (fun k => ([k] : Path)) = _
    simp [afterCover, Tree.kids]
  have haft2 : afterCover (uTree u) (c ++ [i]) =
      ((List.range' (i + 1) (ksc.length - (i + 1))).map (fun k => ([k] : Path))).map
        (c ++ ·) ++ afterCover (uTree u) c := by
    have h := afterCover_append (p := c) htcv [i]
    rw [hsubDc, haft3] at h
    exact h
  -- the big partition of allLeaves
  symm
  apply filter_partition
    (X := (beforeCover (uTree u) (c ++ i :: s')).flatMap (expandT (uTree u)))
    (Y := ((afterCover ksc[j] f').flatMap (expandT ksc[j])).map ((c ++ [j]) ++ ·) ++
      (((List.range' (j + 1) (ksc.length - (j + 1))).map (fun k => ([k] : Path))).flatMap
        (expandT (.node vc ksc))).map (c ++ ·) ++
      (afterCover (uTree u) c).flatMap (expandT (uTree u)))
  · -- allLeaves = X ++ middle ++ Y
    rw [hmid]
    rw [allLeaves_eq (forest_ne_nil hvs)]
    rw [split_leaves (c ++ i :: s') (uTree u) hts]
    rw [haft1, List.flatMap_append]
    rw [flatMap_expandT_lift hvci, hsubDci]
    rw [haft2, List.flatMap_append]
    rw [flatMap_expandT_lift htcv, hsubDc]
    rw [hrange, hrange2]
    simp only [List.map_append, List.flatMap_append, List.map_cons, List.flatMap_cons,
      hEj, hlj, List.map_nil, List.flatMap_nil, List.append_nil, map_map_cons,
      List.append_assoc]
  · -- X: everything before start's subtree is below the span
    intro l hl
    obtain ⟨b, hb, hlb⟩ := List.mem_flatMap.mp hl
    obtain ⟨pre, k, m, rest, rfl, hsh, hkm⟩ :=
      beforeCover_shape (c ++ i :: s') (uTree u) b hb
    obtain ⟨e, rfl⟩ := expandT_mem_shape hlb
    apply span_first_false
    apply pLt_shape (p := pre) (k := k) (m := m) (x := e) (y := rest ++ es) _ _ hkm
    · simp
    · rw [hfs, hsh]
      simp
  · -- middle: everything in the result's expansion lies inside the span
    intro l hl
    rw [hmid] at hl
    simp only [List.mem_append] at hl
    have hfirst : ∀ y rest2, l = c ++ i :: y → lastLeaf u (c ++ j :: f') = c ++ j :: rest2 →
        (pLe (firstLeaf u (c ++ i :: s')) l && pLe l (lastLeaf u (c ++ j :: f'))) =
          (pLe (firstLeaf u (c ++ i :: s')) l && true) := by
      intro y rest2 h1 h2
      rw [pLe_of_pLt (pLt_shape (p := c) h1 h2 hij)]
    rcases hl with ((((hl | hl) | hl) | hl) | hl)
    · -- the start node itself
      have hmem : l ∈ leafExpansion u (c ++ i :: s') := by
        rw [leafExpansion_eq (by simp)]
        exact hl
      have hb1 := (leafExpansion_bounds hmem).1
      obtain ⟨e, rfl⟩ := expandT_mem_shape hl
      rw [hb1]
      have h2 : pLt ((c ++ i :: s') ++ e) (lastLeaf u (c ++ j :: f')) = true := by
        apply pLt_shape (p := c) (k := i) (m := j) (x := s' ++ e) (y := f' ++ ef) _ _ hij
        · simp
        · rw [hlf]; simp
      rw [pLe_of_pLt h2]
      rfl
    · -- following siblings inside start's child subtree
      obtain ⟨l0, hl0, rfl⟩ := List.mem_map.mp hl
      obtain ⟨a, ha, hla⟩ := List.mem_flatMap.mp hl0
      obtain ⟨pre, k, m, rest, rfl, hsh, hmk⟩ := afterCover_shape s' ksc[i] a ha
      obtain ⟨e, rfl⟩ := expandT_mem_shape hla
      have h1 : pLt (firstLeaf u (c ++ i :: s')) ((c ++ [i]) ++ (pre ++ [k] ++ e)) = true := by
        apply pLt_shape (p := (c ++ [i]) ++ pre) (k := m) (m := k)
          (x := rest ++ es) (y := e) _ _ hmk
        · rw [hfs, hsh]
          simp
        · simp
      have h2 : pLt ((c ++ [i]) ++ (pre ++ [k] ++ e)) (lastLeaf u (c ++ j :: f')) = true := by
        apply pLt_shape (p := c) (k := i) (m := j)
          (x := pre ++ [k] ++ e) (y := f' ++ ef) _ _ hij
        · simp
        · rw [hlf]; simp
      rw [pLe_of_pLt h1, pLe_of_pLt h2]
      rfl
    · -- whole siblings strictly between the two spines
      obtain ⟨l0, hl0, rfl⟩ := List.mem_map.mp hl
      obtain ⟨b, hb, hl0b⟩ := List.mem_flatMap.mp hl0
      obtain ⟨k, hk, rfl⟩ := List.mem_map.mp hb
      obtain ⟨e, rfl⟩ := expandT_mem_shape hl0b
      have hk' := List.mem_range'_1.mp hk
      have h1 : pLt (firstLeaf u (c ++ i :: s')) (c ++ ([k] ++ e)) = true := by
        apply pLt_shape (p := c) (k := i) (m := k) (x := s' ++ es) (y := e) _ _ (by omega)
        · rw [hfs]; simp
        · simp
      have h2 : pLt (c ++ ([k] ++ e)) (lastLeaf u (c ++ j :: f')) = true := by
        apply pLt_shape (p := c) (k := k) (m := j) (x := e) (y := f' ++ ef) _ _ (by omega)
        · simp
        · rw [hlf]; simp
      rw [pLe_of_pLt h1, pLe_of_pLt h2]
      rfl
    · -- earlier children along finish's spine
      obtain ⟨l0, hl0, rfl⟩ := List.mem_map.mp hl
      obtain ⟨b, hb, hlb⟩ := List.mem_flatMap.mp hl0
      obtain ⟨pre, k, m, rest, rfl, hsh, hkm⟩ := beforeCover_shape f' ksc[j] b hb
      obtain ⟨e, rfl⟩ := expandT_mem_shape hlb
      have h1 : pLt (firstLeaf u (c ++ i :: s')) ((c ++ [j]) ++ (pre ++ [k] ++ e)) = true := by
        apply pLt_shape (p := c) (k := i) (m := j)
          (x := s' ++ es) (y := pre ++ [k] ++ e) _ _ hij
        · rw [hfs]; simp
        · simp
      have h2 : pLt ((c ++ [j]) ++ (pre ++ [k] ++ e)) (lastLeaf u (c ++ j :: f')) = true := by
        apply pLt_shape (p := (c ++ [j]) ++ pre) (k := k) (m := m)
          (x := e) (y := rest ++ ef) _ _ hkm
        · simp
        · rw [hlf, hsh]
          simp
      rw [pLe_of_pLt h1, pLe_of_pLt h2]
      rfl
    · -- finish itself
      have hmem : l ∈ leafExpansion u (c ++ j :: f') := by
        rw [hEf]
        exact hl
      have hb2 := (leafExpansion_bounds hmem).2
      obtain ⟨l0, hl0, rfl⟩ := List.mem_map.mp hl
      obtain ⟨e, rfl⟩ := expandT_mem_shape hl0
      have h1 : pLt (firstLeaf u (c ++ i :: s')) ((c ++ [j]) ++ (f' ++ e)) = true := by
        apply pLt_shape (p := c) (k := i) (m := j) (x := s' ++ es) (y := f' ++ e) _ _ hij
        · rw [hfs]; simp
        · simp
      rw [pLe_of_pLt h1, hb2]
      rfl
  · -- Y: everything after finish's subtree is above the span
    intro l hl
    simp only [List.mem_append] at hl
    rcases hl with ((hl | hl) | hl)
    · -- later descendants on finish's spine
      obtain ⟨l0, hl0, rfl⟩ := List.mem_map.mp hl
      obtain ⟨a, ha, hla⟩ := List.mem_flatMap.mp hl0
      obtain ⟨pre, k, m, rest, rfl, hsh, hmk⟩ := afterCover_shape f' ksc[j] a ha
      obtain ⟨e, rfl⟩ := expandT_mem_shape hla
      apply span_second_false
      apply pLt_shape (p := (c ++ [j]) ++ pre) (k := m) (m := k)
        (x := rest ++ ef) (y := e) _ _ hmk
      · rw [hlf, hsh]
        simp
      · simp
    · -- whole siblings after finish's spine child
      obtain ⟨l0, hl0, rfl⟩ := List.mem_map.mp hl
      obtain ⟨b, hb, hl0b⟩ := List.mem_flatMap.mp hl0
      obtain ⟨k, hk, rfl⟩ := List.mem_map.mp hb
      obtain ⟨e, rfl⟩ := expandT_mem_shape hl0b
      have hk' := List.mem_range'_1.mp hk
      apply span_second_false
      apply pLt_shape (p := c) (k := j) (m := k) (x := f' ++ ef) (y := e) _ _ (by omega)
      · rw [hlf]; simp
      · simp
    · -- following siblings of the common ancestor's spine
      obtain ⟨a, ha, hla⟩ := List.mem_flatMap.mp hl
      obtain ⟨pre, k, m, rest, rfl, hsh, hmk⟩ := afterCover_shape c (uTree u) a ha
      obtain ⟨e, rfl⟩ := expandT_mem_shape hla
      apply span_second_false
      apply pLt_shape (p := pre) (k := m) (m := k)
        (x := rest ++ j :: f' ++ ef) (y := e) _ _ hmk
      · rw [hlf, hsh]
        simp
      · simp

/-! ## Claim C1 -/

/-- C1: for every universe and every pair (start, finish) with finish
reachable forward from start in document order, replacing each node of
`between`'s result by its full ordered list of leaf descendants (itself if
a leaf) yields exactly the contiguous document-order sequence of the
document's leaves from start's first leaf through finish's last leaf,
inclusive — the slice of `allLeaves` inside that closed interval, hence
with no gaps and no duplicates. -/
theorem between_coverage (u : Universe) (s f : Path) (r : List Path)
    (hF : Forward u s f) (hok : between u s f = .ok r) :
    expandAll u r = (allLeaves u).filter
      (fun l => pLe (firstLeaf u s) l && pLe l (lastLeaf u f)) := by
  obtain ⟨hs, hf, hcase⟩ := hF
  have hcne := between_ok_ne hok
  rw [between_eq_ok hcne] at hok
  cases hok
  rw [gatherLeft_eq_nil, List.nil_append]
  rcases hcase with rfl | ⟨hnsf, hnfs, hlt⟩
  · have hgr : gatherRight u s s = [] := by
      unfold gatherRight
      simp [commonPrefix_self, List.drop_length, gatherRightGo]
    rw [hgr]
    rw [show ([s] ++ [] : List Path) = [s] by simp]
    exact coverage_self hs
  · have hps := commonPrefix_fst s f
    have hpf := commonPrefix_snd s f
    have hs_eq := append_drop_of_pre hps
    have hf_eq := append_drop_of_pre hpf
    cases hds : s.drop (commonPrefix s f).length with
    | nil =>
      exfalso
      rw [hds, List.append_nil] at hs_eq
      have : s.isPrefixOf f = true := List.isPrefixOf_iff_prefix.mpr (hs_eq ▸ hpf)
      rw [hnsf] at this
      simp at this
    | cons i s' =>
      cases hdf : f.drop (commonPrefix s f).length with
      | nil =>
        exfalso
        rw [hdf, List.append_nil] at hf_eq
        have : f.isPrefixOf s = true := List.isPrefixOf_iff_prefix.mpr (hf_eq ▸ hps)
        rw [hnfs] at this
        simp at this
      | cons j f' =>
        have hij_ne : i ≠ j := commonPrefix_drop_ne s f i s' j f' hds hdf
        rw [hds] at hs_eq
        rw [hdf] at hf_eq
        obtain ⟨c, hc⟩ : ∃ c, commonPrefix s f = c := ⟨_, rfl⟩
        rw [hc] at hs_eq hf_eq hcne
        subst hs_eq
        subst hf_eq
        have hij : i < j := by
          rw [pLt_append] at hlt
          simp only [pLt, Bool.or_eq_true, Bool.and_eq_true, decide_eq_true_eq] at hlt
          rcases hlt with h | ⟨he, _⟩
          · exact h
          · exact absurd he hij_ne
        exact coverage_main hs hf hij hcne

/-- Witness for C1 on the spec's `P(A, B, C)` scenario. -/
theorem between_coverage_witness :
    expandAll exFlat [[0,0],[0,1],[0,2]] = (allLeaves exFlat).filter
      (fun l => pLe (firstLeaf exFlat [0,0]) l && pLe l (lastLeaf exFlat [0,2])) :=
  between_coverage exFlat [0,0] [0,2] [[0,0],[0,1],[0,2]] (by decide) (by rfl)

/-! ## Claim C7: non-nesting of the result -/

theorem nonprefix_shape {p : Path} {k m : Nat} {x y : Path} (h : k ≠ m) :
    ¬ (p ++ k :: x) <+: (p ++ m :: y) := by
  rintro ⟨t, ht⟩
  rw [List.append_assoc] at ht
  have h2 := List.append_cancel_left ht
  rw [List.cons_append] at h2
  injection h2 with h3 _
  exact h h3

theorem nonNested_shape {p : Path} {k m : Nat} {x y : Path} (h : k ≠ m) :
    nonNested (p ++ k :: x) (p ++ m :: y) :=
  ⟨nonprefix_shape h, nonprefix_shape (fun e => h e.symm)⟩

theorem nonNested_symm {a b : Path} (h : nonNested a b) : nonNested b a :=
  ⟨h.2, h.1⟩

theorem nonNested_append {c x y : Path} (h : nonNested x y) :
    nonNested (c ++ x) (c ++ y) := by
  unfold nonNested at h ⊢
  rw [List.prefix_append_right_inj, List.prefix_append_right_inj]
  exact h

theorem nonNested_cons {i j : Nat} {x y : Path} (h : i ≠ j) :
    nonNested (i :: x) (j :: y) :=
  nonNested_shape (p := []) h

theorem nonNested_cons_iff {i : Nat} {x y : Path} :
    nonNested (i :: x) (i :: y) ↔ nonNested x y := by
  unfold nonNested
  rw [show (i :: x : Path) = [i] ++ x from rfl, show (i :: y : Path) = [i] ++ y from rfl]
  rw [List.prefix_append_right_inj, List.prefix_append_right_inj]

theorem afterCover_pairwise : ∀ (q : Path) (t : Tree),
    (afterCover t q).Pairwise nonNested := by
  intro q
  induction q with
  | nil => intro t; simp [afterCover]
  | cons m p ih =>
    intro t
    show (((afterCover (childD t m) p).map (m :: ·)) ++
      (List.range' (m + 1) (t.kids.length - (m + 1))).map (fun k => ([k] : Path))).Pairwise
        nonNested
    rw [List.pairwise_append]
    refine ⟨?_, ?_, ?_⟩
    · rw [List.pairwise_map]
      exact (ih (childD t m)).imp (fun hab => nonNested_cons_iff.mpr hab)
    · rw [List.pairwise_map]
      refine (List.pairwise_lt_range' _ _).imp ?_
      intro a b hab
      exact nonNested_cons (Nat.ne_of_lt hab)
    · intro a ha b hb
      obtain ⟨a', _, rfl⟩ := List.mem_map.mp ha
      obtain ⟨k, hk, rfl⟩ := List.mem_map.mp hb
      have hk' := List.mem_range'_1.mp hk
      exact nonNested_cons (by omega)

theorem uptoCover_pairwise : ∀ (q : Path) (t : Tree),
    (uptoCover t q).Pairwise nonNested := by
  intro q
  induction q with
  | nil => intro t; simp [uptoCover]
  | cons m p ih =>
    intro t
    show (((List.range m).map (fun k => ([k] : Path))) ++
      (uptoCover (childD t m) p).map (m :: ·)).Pairwise nonNested
    rw [List.pairwise_append]
    refine ⟨?_, ?_, ?_⟩
    · rw [List.pairwise_map]
      refine (List.pairwise_lt_range _).imp ?_
      intro a b hab
      exact nonNested_cons (Nat.ne_of_lt hab)
    · rw [List.pairwise_map]
      exact (ih (childD t m)).imp (fun hab => nonNested_cons_iff.mpr hab)
    · intro a ha b hb
      obtain ⟨k, hk, rfl⟩ := List.mem_map.mp ha
      obtain ⟨b', _, rfl⟩ := List.mem_map.mp hb
      have hk' := List.mem_range.mp hk
      exact nonNested_cons (by omega)

theorem uptoCover_head_shape {t : Tree} {q b : Path} (hb : b ∈ uptoCover t q) :
    b = q ∨ ∃ pre k m rest, b = pre ++ [k] ∧ q = pre ++ m :: rest ∧ k < m := by
  rw [uptoCover_eq] at hb
  rcases List.mem_append.mp hb with hb | hb
  · exact Or.inr (beforeCover_shape q t b hb)
  · simp only [List.mem_singleton] at hb
    exact Or.inl hb

/-- The pairwise non-nesting of `[start] ++ right sequence` for a proper
span. -/
theorem nonnested_main {u : Universe} {c : Path} {i j : Nat} {s' f' : Path}
    (hvs : validP u (c ++ i :: s')) (hvf : validP u (c ++ j :: f'))
    (hij : i < j) (hcne : c ≠ []) :
    ((c ++ i :: s') :: gatherRight u (c ++ i :: s') (c ++ j :: f')).Pairwise nonNested := by
  have hij_ne : i ≠ j := Nat.ne_of_lt hij
  have hcp : commonPrefix (c ++ i :: s') (c ++ j :: f') = c :=
    commonPrefix_of_append_ne hij_ne c s' f'
  have hvc : validP u c := validP_of_pre hvs ⟨i :: s', rfl⟩ hcne
  have hvc' : (subtreeAt u c).isSome = true := hvc
  obtain ⟨tc, htc⟩ := Option.isSome_iff_exists.mp hvc'
  cases tc with
  | node vc ksc =>
  have htc' : subT (uTree u) c = some (.node vc ksc) := by
    rw [← subtreeAt_eq u hcne]
    exact htc
  have hts : validT (uTree u) (c ++ i :: s') := validP_validT hvs
  have htf : validT (uTree u) (c ++ j :: f') := validP_validT hvf
  have hsi : validT (.node vc ksc) (i :: s') := by
    unfold validT at hts ⊢
    rw [subT_append, htc'] at hts
    exact hts
  have hfi : validT (.node vc ksc) (j :: f') := by
    unfold validT at htf ⊢
    rw [subT_append, htc'] at htf
    exact htf
  obtain ⟨hi, hvs'⟩ := validT_cons hsi
  obtain ⟨hj, hvf'⟩ := validT_cons hfi
  have hgr : gatherRight u (c ++ i :: s') (c ++ j :: f') =
      ((afterCover ksc[i] s').map (i :: ·) ++
        (List.range' (i + 1) (j - (i + 1))).map (fun k => ([k] : Path)) ++
        (uptoCover ksc[j] f').map (j :: ·)).map (c ++ ·) := by
    unfold gatherRight
    rw [hcp, List.drop_left, List.drop_left]
    simp only [gatherRightGo, if_pos hij, htc, Option.getD_some, childD_eq hi, childD_eq hj]
  rw [hgr]
  rw [List.pairwise_cons]
  constructor
  · -- start versus every right-sequence node
    intro b hb
    obtain ⟨z, hz, rfl⟩ := List.mem_map.mp hb
    rcases List.mem_append.mp hz with hz | hz
    · rcases List.mem_append.mp hz with hz | hz
      · -- after-cover of start's own spine: same head i, deeper shapes differ
        obtain ⟨a, ha, rfl⟩ := List.mem_map.mp hz
        obtain ⟨pre, k, m, rest, rfl, hsh, hmk⟩ := afterCover_shape s' ksc[i] a ha
        have : nonNested (i :: s') (i :: (pre ++ [k])) := by
          rw [nonNested_cons_iff, hsh]
          have h1 : pre ++ m :: rest = pre ++ m :: rest := rfl
          have := nonNested_shape (p := pre) (k := m) (m := k)
            (x := rest) (y := ([] : Path)) (Nat.ne_of_lt hmk)
          simpa using this
        exact nonNested_append this
      · -- middle siblings: head differs
        obtain ⟨k, hk, rfl⟩ := List.mem_map.mp hz
        have hk' := List.mem_range'_1.mp hk
        have : nonNested (i :: s') ([k] : Path) := nonNested_cons (by omega)
        exact nonNested_append this
    · -- finish's spine: head differs
      obtain ⟨b', _, rfl⟩ := List.mem_map.mp hz
      have : nonNested (i :: s') (j :: b') := nonNested_cons hij_ne
      exact nonNested_append this
  · -- within the right sequence
    rw [List.pairwise_map]
    have hpw : ((afterCover ksc[i] s').map (i :: ·) ++
        (List.range' (i + 1) (j - (i + 1))).map (fun k => ([k] : Path)) ++
        (uptoCover ksc[j] f').map (j :: ·)).Pairwise nonNested := by
      rw [List.pairwise_append, List.pairwise_append]
      refine ⟨⟨?_, ?_, ?_⟩, ?_, ?_⟩
      · rw [List.pairwise_map]
        exact (afterCover_pairwise s' ksc[i]).imp (fun hab => nonNested_cons_iff.mpr hab)
      · rw [List.pairwise_map]
        refine (List.pairwise_lt_range' _ _).imp ?_
        intro a b hab
        exact nonNested_cons (Nat.ne_of_lt hab)
      · intro a ha b hb
        obtain ⟨a', _, rfl⟩ := List.mem_map.mp ha
        obtain ⟨k, hk, rfl⟩ := List.mem_map.mp hb
        have hk' := List.mem_range'_1.mp hk
        exact nonNested_cons (by omega)
      · rw [List.pairwise_map]
        exact (uptoCover_pairwise f' ksc[j]).imp (fun hab => nonNested_cons_iff.mpr hab)
      · intro a ha b hb
        obtain ⟨b', _, rfl⟩ := List.mem_map.mp hb
        rcases List.mem_append.mp ha with ha | ha
        · obtain ⟨a', _, rfl⟩ := List.mem_map.mp ha
          exact nonNested_cons hij_ne
        · obtain ⟨k, hk, rfl⟩ := List.mem_map.mp ha
          have hk' := List.mem_range'_1.mp hk
          exact nonNested_cons (by omega)
    refine hpw.imp ?_
    intro a b hab
    exact nonNested_append hab

/-- Counterexample to C7 as stated: on the spec's own `P(A, B, C)`
scenario, `between(A, C)` is a valid forward span returning `[A, B, C]`,
and `A`'s parent `P` is fully coverable by the consecutive entries
`A, B, C` of the result — the asserted minimality fails. -/
theorem between_minimality_counterexample :
    Forward exFlat [0,0] [0,2] ∧
    between exFlat [0,0] [0,2] = .ok [[0,0],[0,1],[0,2]] ∧
    ¬ resultMinimal exFlat [[0,0],[0,1],[0,2]] := by
  refine ⟨by decide, by rfl, ?_⟩
  intro hmin
  exact absurd (hmin [0,0] (by decide) [0] (by decide)) (by decide)

/-- C7 (amended): for every valid forward span, no node of `between`'s
result is an ancestor or descendant of another node of the result — in
particular no node of the left or right sequence is a descendant of
another node of the same sequence — and the result has no duplicates.
(The stronger claim, that no node's parent is fully coverable by
consecutive entries of the result, is refuted by
the `P(A, B, C)` scenario: minimality at that grain is Simplify's job.) -/
theorem between_pairwise_nonNested (u : Universe) (s f : Path) (r : List Path)
    (hF : Forward u s f) (hok : between u s f = .ok r) :
    r.Pairwise nonNested ∧ r.Nodup := by
  have main : r.Pairwise nonNested := by
    obtain ⟨hs, hf, hcase⟩ := hF
    have hcne := between_ok_ne hok
    rw [between_eq_ok hcne] at hok
    cases hok
    rw [gatherLeft_eq_nil, List.nil_append]
    rcases hcase with rfl | ⟨hnsf, hnfs, hlt⟩
    · have hgr : gatherRight u s s = [] := by
        unfold gatherRight
        simp [commonPrefix_self, List.drop_length, gatherRightGo]
      rw [hgr]
      simp
    · have hps := commonPrefix_fst s f
      have hpf := commonPrefix_snd s f
      have hs_eq := append_drop_of_pre hps
      have hf_eq := append_drop_of_pre hpf
      cases hds : s.drop (commonPrefix s f).length with
      | nil =>
        exfalso
        rw [hds, List.append_nil] at hs_eq
        have : s.isPrefixOf f = true := List.isPrefixOf_iff_prefix.mpr (hs_eq ▸ hpf)
        rw [hnsf] at this
        simp at this
      | cons i s' =>
        cases hdf : f.drop (commonPrefix s f).length with
        | nil =>
          exfalso
          rw [hdf, List.append_nil] at hf_eq
          have : f.isPrefixOf s = true := List.isPrefixOf_iff_prefix.mpr (hf_eq ▸ hps)
          rw [hnfs] at this
          simp at this
        | cons j f' =>
          have hij_ne : i ≠ j := commonPrefix_drop_ne s f i s' j f' hds hdf
          rw [hds] at hs_eq
          rw [hdf] at hf_eq
          obtain ⟨c, hc⟩ : ∃ c, commonPrefix s f = c := ⟨_, rfl⟩
          rw [hc] at hs_eq hf_eq hcne
          subst hs_eq
          subst hf_eq
          have hij : i < j := by
            rw [pLt_append] at hlt
            simp only [pLt, Bool.or_eq_true, Bool.and_eq_true, decide_eq_true_eq] at hlt
            rcases hlt with h | ⟨he, _⟩
            · exact h
            · exact absurd he hij_ne
          show ((c ++ i :: s') :: gatherRight u (c ++ i :: s') (c ++ j :: f')).Pairwise
            nonNested
          exact nonnested_main hs hf hij hcne
  refine ⟨main, ?_⟩
  apply main.imp
  intro a b hab
  intro he
  subst he
  exact hab.1 List.prefix_rfl

/-- Witness for the amended C7 on the spec's `R(P1(A,B), P2(C,D))`
scenario. -/
theorem between_pairwise_nonNested_witness :
    ([[0,0,1],[0,1,0]] : List Path).Pairwise nonNested ∧
      ([[0,0,1],[0,1,0]] : List Path).Nodup :=
  between_pairwise_nonNested
    ⟨[.node 0 [.node 1 [.node 2 [], .node 3 []], .node 4 [.node 5 [], .node 6 []]]]⟩
    [0,0,1] [0,1,0] [[0,0,1],[0,1,0]] (by decide) (by rfl)

/-! ## Claim C5: simplify preserves the covered leaves -/

theorem pairwise_pLt_of_chain' {l : List Path}
    (h : List.Chain' (fun a b => pLt a b = true) l) :
    l.Pairwise (fun a b => pLt a b = true) := by
  haveI : IsTrans Path (fun a b => pLt a b = true) :=
    ⟨fun a b c hab hbc => pLt_trans hab hbc⟩
  exact List.chain'_iff_pairwise.mp h

theorem nodup_of_pairwise_pLt {l : List Path}
    (h : l.Pairwise (fun a b => pLt a b = true)) : l.Nodup :=
  h.imp (fun hab => pLt_ne hab)

theorem getLastD_any (l : Path) (d e : Nat) (h : l ≠ []) : l.getLastD d = l.getLastD e := by
  cases l with
  | nil => exact absurd rfl h
  | cons a t => rfl

theorem dropLast_concat_getLastD : ∀ (l : Path), l ≠ [] → l.dropLast ++ [l.getLastD 0] = l := by
  intro l
  induction l with
  | nil => intro h; exact absurd rfl h
  | cons a t ih =>
    intro _
    cases t with
    | nil => rfl
    | cons b t' =>
      have h1 : (a :: b :: t').getLastD 0 = (b :: t').getLastD 0 := by
        show (b :: t').getLastD a = (b :: t').getLastD 0
        exact getLastD_any _ a 0 (by simp)
      show a :: ((b :: t').dropLast ++ [(a :: b :: t').getLastD 0]) = a :: b :: t'
      rw [h1, ih (by simp)]

theorem parentOf_some_shape {z p : Path} (h : parentOf z = some p) : ∃ k, z = p ++ [k] := by
  cases z with
  | nil => simp [parentOf] at h
  | cons a t =>
    cases t with
    | nil => simp [parentOf] at h
    | cons b t' =>
      have hz : parentOf (a :: b :: t') = some ((a :: b :: t').dropLast) := rfl
      rw [hz] at h
      injection h with h2
      refine ⟨(a :: b :: t').getLastD 0, ?_⟩
      rw [← h2, dropLast_concat_getLastD _ (by simp)]

theorem childrenOf_sorted {u : Universe} {p : Path} {cs : List Path}
    (h : childrenOf u p = some cs) : cs.Pairwise (fun a b => pLt a b = true) := by
  obtain ⟨t, _, rfl⟩ := childrenOf_shape h
  rw [List.pairwise_map]
  refine (List.pairwise_lt_range _).imp ?_
  intro a b hab
  rw [show p ++ [a] = p ++ a :: ([] : Path) from rfl, show p ++ [b] = p ++ b :: ([] : Path) from rfl]
  exact pLt_pos hab p [] []

theorem sorted_mem_eq : ∀ {l1 l2 : List Path},
    l1.Pairwise (fun a b => pLt a b = true) → l2.Pairwise (fun a b => pLt a b = true) →
    (∀ x, x ∈ l1 ↔ x ∈ l2) → l1 = l2 := by
  intro l1
  induction l1 with
  | nil =>
    intro l2 _ _ hm
    cases l2 with
    | nil => rfl
    | cons b t2 =>
      have := (hm b).mpr (by simp)
      simp at this
  | cons a t1 ih =>
    intro l2 h1 h2 hm
    cases l2 with
    | nil =>
      have := (hm a).mp (by simp)
      simp at this
    | cons b t2 =>
      have hab : a = b := by
        have ha2 : a ∈ b :: t2 := (hm a).mp (by simp)
        have hb1 : b ∈ a :: t1 := (hm b).mpr (by simp)
        rcases List.mem_cons.mp ha2 with h | ha2
        · exact h
        · rcases List.mem_cons.mp hb1 with h | hb1
          · exact h.symm
          · have hba := (List.pairwise_cons.mp h2).1 a ha2
            have hab' := (List.pairwise_cons.mp h1).1 b hb1
            rw [pLt_asymm hab'] at hba
            simp at hba
      subst hab
      have ht : ∀ x, x ∈ t1 ↔ x ∈ t2 := by
        intro x
        constructor
        · intro hx
          have hx2 := (hm x).mp (by simp [hx])
          rcases List.mem_cons.mp hx2 with h | h
          · subst h
            have := (List.pairwise_cons.mp h1).1 x hx
            rw [pLt_irrefl] at this
            simp at this
          · exact h
        · intro hx
          have hx1 := (hm x).mpr (by simp [hx])
          rcases List.mem_cons.mp hx1 with h | h
          · subst h
            have := (List.pairwise_cons.mp h2).1 x hx
            rw [pLt_irrefl] at this
            simp at this
          · exact h
      rw [ih (List.pairwise_cons.mp h1).2 (List.pairwise_cons.mp h2).2 ht]

theorem validP_of_childrenOf {u : Universe} {p : Path} {cs : List Path}
    (h : childrenOf u p = some cs) : validP u p := by
  obtain ⟨t, ht, _⟩ := childrenOf_shape h
  simp [validP, ht]

theorem subtreeAt_ne_nil {u : Universe} {p : Path} {t : Tree}
    (h : subtreeAt u p = some t) : p ≠ [] := by
  intro h0
  rw [h0] at h
  simp [subtreeAt] at h

theorem expandAll_children {u : Universe} {p : Path} {cs : List Path}
    (h : childrenOf u p = some cs) (hne : cs ≠ []) :
    expandAll u cs = leafExpansion u p := by
  obtain ⟨t, ht, hcs⟩ := childrenOf_shape h
  have hpne : p ≠ [] := subtreeAt_ne_nil ht
  cases t with
  | node v ks =>
  have hn : ks.length ≠ 0 := by
    intro h0
    rw [hcs] at hne
    simp [Tree.kids, h0] at hne
  have htv : subT (uTree u) p = some (.node v ks) := by
    rw [← subtreeAt_eq u hpne]
    exact ht
  have hvalT : validT (uTree u) p := by
    unfold validT
    rw [htv]
    rfl
  have hsubDp : subD (uTree u) p = Tree.node v ks := by
    unfold subD
    rw [htv]
    rfl
  rw [hcs]
  show ((List.range (Tree.node v ks).kids.length).map (fun k => p ++ [k])).flatMap
    (leafExpansion u) = _
  rw [List.flatMap_map]
  have hpoint : (fun k => leafExpansion u (p ++ [k])) =
      (fun k => (expandT (.node v ks) [k]).map (p ++ ·)) := by
    funext k
    rw [leafExpansion_eq (by simp [hpne])]
    have he := expandT_append hvalT [k]
    rw [hsubDp] at he
    exact he
  rw [hpoint, ← List.map_flatMap]
  have hafter := range_flatMap_after (v := v) (n := ks.length) (j := 0) rfl
  rw [List.flatMap_map] at hafter
  rw [show (Tree.node v ks).kids.length = ks.length from rfl, List.range_eq_range']
  rw [show (fun a => expandT (Tree.node v ks) [a]) =
    (fun k => expandT (Tree.node v ks) [k]) from rfl]
  rw [hafter]
  unfold leafExpansion
  rw [ht]
  have hlk : leavesT (Tree.node v ks) = leavesKids ks 0 := by
    apply leavesT_eq
    intro h0
    rw [h0] at hn
    simp at hn
  show List.map (fun x => p ++ x) (leavesKids ks 0) =
    List.map (fun x => p ++ x) (leavesT (Tree.node v ks))
  rw [hlk]

theorem pre_of_between {k : Nat} : ∀ {a b : Path}, pLt a b = true →
    pLt b (a ++ [k]) = true → a <+: b := by
  intro a
  induction a with
  | nil => intro b _ _; simp
  | cons x a' ih =>
    intro b h1 h2
    cases b with
    | nil => rw [pLt_nil] at h1; simp at h1
    | cons y b' =>
      simp only [pLt, Bool.or_eq_true, Bool.and_eq_true, decide_eq_true_eq] at h1
      rw [List.cons_append] at h2
      simp only [pLt, Bool.or_eq_true, Bool.and_eq_true, decide_eq_true_eq] at h2
      rcases h1 with h1 | ⟨rfl, h1⟩
      · rcases h2 with h2 | ⟨h2, _⟩ <;> omega
      · rcases h2 with h2 | ⟨_, h2⟩
        · omega
        · have := ih h1 h2
          obtain ⟨t, ht⟩ := this
          exact ⟨t, by rw [List.cons_append, ht]⟩

theorem child_mem_of_valid_ext {u : Universe} {p : Path} {cs : List Path} {d : Nat}
    {tl : Path} (hc : childrenOf u p = some cs) (hv : validP u (p ++ d :: tl)) :
    p ++ [d] ∈ cs := by
  obtain ⟨t, ht, hcs⟩ := childrenOf_shape hc
  have hpne : p ≠ [] := subtreeAt_ne_nil ht
  have htv : subT (uTree u) p = some t := by
    rw [← subtreeAt_eq u hpne]
    exact ht
  have hv' : (subT (uTree u) (p ++ d :: tl)).isSome = true := by
    have h2 := hv
    unfold validP at h2
    rw [subtreeAt_eq u (by simp)] at h2
    exact h2
  rw [subT_append, htv] at hv'
  cases t with
  | node v ks =>
    have hvt : validT (.node v ks) (d :: tl) := hv'
    obtain ⟨hd, _⟩ := validT_cons hvt
    rw [hcs]
    exact List.mem_map.mpr ⟨d, List.mem_range.mpr hd, rfl⟩

theorem parent_nonNested {u : Universe} {p b : Path} {cs : List Path}
    (hc : childrenOf u p = some cs) (hne : cs ≠ []) (hvb : validP u b)
    (hsep : ∀ w ∈ cs, w ≠ b ∧ nonNested w b) : nonNested p b := by
  obtain ⟨t, ht, hcs⟩ := childrenOf_shape hc
  constructor
  · intro hpb
    obtain ⟨tl, htl⟩ := hpb
    cases tl with
    | nil =>
      rw [List.append_nil] at htl
      obtain ⟨w, hw⟩ := List.exists_mem_of_ne_nil cs hne
      have hwsh : ∃ k, w = p ++ [k] := by
        rw [hcs] at hw
        obtain ⟨k, _, rfl⟩ := List.mem_map.mp hw
        exact ⟨k, rfl⟩
      obtain ⟨k, rfl⟩ := hwsh
      refine (hsep _ hw).2.2 ?_
      rw [← htl]
      exact List.prefix_append p [k]
    | cons d tl' =>
      subst htl
      have hw : p ++ [d] ∈ cs := child_mem_of_valid_ext hc hvb
      have hpre : (p ++ [d]) <+: (p ++ d :: tl') := ⟨tl', by simp⟩
      exact (hsep _ hw).2.1 hpre
  · intro hbp
    obtain ⟨w, hw⟩ := List.exists_mem_of_ne_nil cs hne
    have hwsh : ∃ k, w = p ++ [k] := by
      rw [hcs] at hw
      obtain ⟨k, _, rfl⟩ := List.mem_map.mp hw
      exact ⟨k, rfl⟩
    obtain ⟨k, rfl⟩ := hwsh
    exact (hsep _ hw).2.2 (hbp.trans (List.prefix_append p [k]))

theorem pairwise_nonNested_of_mem {l : List Path} (hnd : l.Nodup)
    (h : ∀ a ∈ l, ∀ b ∈ l, a ≠ b → nonNested a b) : l.Pairwise nonNested := by
  induction l with
  | nil => simp
  | cons a t ih =>
    rw [List.pairwise_cons]
    constructor
    · intro b hb
      have hne : a ≠ b := by
        intro he
        subst he
        exact (List.nodup_cons.mp hnd).1 hb
      exact h a (by simp) b (by simp [hb]) hne
    · exact ih (List.nodup_cons.mp hnd).2
        (fun x hx y hy hxy => h x (by simp [hx]) y (by simp [hy]) hxy)

/-- The head of a collapse pass on a nonempty list: either the original
head survives, or its fully-covered run became its parent. -/
theorem collapseOnce_head (u : Universe) (y : Path) (ys : List Path) :
    (∃ t0, collapseOnce u (y :: ys) = y :: t0) ∨
    (∃ p cs t0, collapseOnce u (y :: ys) = p :: t0 ∧ parentOf y = some p ∧
      childrenOf u p = some cs ∧ cs ≠ [] ∧ ∀ z ∈ cs, z ∈ y :: ys) := by
  rw [collapseOnce_cons]
  rcases collapseRun_cases u (y :: (takeRun (parentOf y) ys).1) with h |
    ⟨x, t, p, cs, hr, hp, hcc, hs, h⟩
  · rw [h]
    left
    exact ⟨_, rfl⟩
  · rw [h]
    right
    have hx : x = y := by
      injection hr with h1 _
      exact h1.symm
    subst hx
    refine ⟨p, cs, _, rfl, hp, hcc, ?_, ?_⟩
    · intro h0
      have hx2 := (setEq_mem hs).1 x (by simp)
      rw [h0] at hx2
      simp at hx2
    · intro z hz
      have hz2 := (setEq_mem hs).2 z hz
      rcases List.mem_cons.mp hz2 with rfl | hzr
      · simp
      · refine List.mem_cons.mpr (Or.inr ?_)
        rw [← takeRun_eq (parentOf x) ys]
        exact List.mem_append.mpr (Or.inl hzr)

/-- Every element of a collapse pass is an original element or a parent
whose complete nonempty children set consists of original elements. -/
theorem collapseOnce_mem (u : Universe) :
    ∀ xs, ∀ z ∈ collapseOnce u xs, z ∈ xs ∨
      ∃ cs, childrenOf u z = some cs ∧ cs ≠ [] ∧ ∀ w ∈ cs, w ∈ xs := by
  apply runs_induction
  · intro z hz
    rw [collapseOnce_nil] at hz
    simp at hz
  · intro x xs0 ih z hz
    have hsub : ∀ w, w ∈ (takeRun (parentOf x) xs0).1 ∨ w ∈ (takeRun (parentOf x) xs0).2 →
        w ∈ x :: xs0 := by
      intro w hw
      refine List.mem_cons.mpr (Or.inr ?_)
      rw [← takeRun_eq (parentOf x) xs0]
      exact List.mem_append.mpr hw
    rw [collapseOnce_cons] at hz
    rcases List.mem_append.mp hz with hz | hz
    · rcases collapseRun_cases u (x :: (takeRun (parentOf x) xs0).1) with hcr |
        ⟨x', t', p, cs, hr, hp, hcc, hs, hcr⟩
      · rw [hcr] at hz
        left
        rcases List.mem_cons.mp hz with rfl | hz
        · simp
        · exact hsub z (Or.inl hz)
      · rw [hcr] at hz
        simp only [List.mem_singleton] at hz
        subst hz
        right
        refine ⟨cs, hcc, ?_, ?_⟩
        · intro h0
          have hx2 := (setEq_mem hs).1 x (by simp)
          rw [h0] at hx2
          simp at hx2
        · intro w hw
          have hw2 := (setEq_mem hs).2 w hw
          rcases List.mem_cons.mp hw2 with rfl | hwr
          · simp
          · exact hsub w (Or.inl hwr)
    · rcases ih z hz with hz' | ⟨cs, h1, h2, h3⟩
      · exact Or.inl (hsub z (Or.inr hz'))
      · exact Or.inr ⟨cs, h1, h2, fun w hw => hsub w (Or.inr (h3 w hw))⟩

/-- Every element of a collapse pass on a sequence of valid handles is a
valid handle. -/
theorem collapseOnce_valid {u : Universe} {rest : List Path}
    (hv : ∀ b ∈ rest, validP u b) : ∀ b ∈ collapseOnce u rest, validP u b := by
  intro b hb
  rcases collapseOnce_mem u rest b hb with h | ⟨cs, hc, _, _⟩
  · exact hv b h
  · exact validP_of_childrenOf hc

/-- A handle sitting before a sequence survives a collapse pass on the
sequence: it stays non-nested with, and document-before, everything the
pass produces. -/
theorem front_collapse {u : Universe} {a : Path} {rest : List Path}
    (hva : validP u a) (hNN : ∀ b ∈ rest, nonNested a b)
    (hlt : ∀ y ys, rest = y :: ys → pLt a y = true) :
    (∀ b ∈ collapseOnce u rest, nonNested a b) ∧
      (∀ z zs, collapseOnce u rest = z :: zs → pLt a z = true) := by
  have hNNself : a ∉ rest := by
    intro h
    exact (hNN a h).1 (List.prefix_refl a)
  have part1 : ∀ b ∈ collapseOnce u rest, nonNested a b := by
    intro b hb
    rcases collapseOnce_mem u rest b hb with h | ⟨cs, hc, hne, hsub⟩
    · exact hNN b h
    · refine nonNested_symm (parent_nonNested hc hne hva ?_)
      intro w hw
      have hwr := hsub w hw
      refine ⟨?_, nonNested_symm (hNN w hwr)⟩
      intro he
      subst he
      exact hNNself hwr
  refine ⟨part1, ?_⟩
  intro z zs hz
  cases rest with
  | nil =>
    rw [collapseOnce_nil] at hz
    exact absurd hz (by simp)
  | cons y ys =>
    have hay : pLt a y = true := hlt y ys rfl
    rcases collapseOnce_head u y ys with ⟨t0, h0⟩ | ⟨p, cs, t0, h0, hp, hcc, hne, hsub⟩
    · rw [h0] at hz
      injection hz with h1 _
      subst h1
      exact hay
    · rw [h0] at hz
      injection hz with h1 _
      subst h1
      have hNNz : nonNested a p := part1 p (by rw [h0]; simp)
      rcases pLt_total a p with h | h | h
      · exact h
      · rw [← h] at hNNz
        exact absurd (List.prefix_refl a) hNNz.1
      · obtain ⟨k, hk⟩ := parentOf_some_shape hp
        rw [hk] at hay
        exact absurd (pre_of_between h hay) hNNz.2

/-- One collapse pass preserves the covered leaf sequence and keeps the
sequence well-formed (ordered, non-nested, valid). -/
theorem collapseOnce_good (u : Universe) : ∀ xs, goodSeq u xs →
    expandAll u (collapseOnce u xs) = expandAll u xs ∧ goodSeq u (collapseOnce u xs) := by
  apply runs_induction
  · intro hg
    rw [collapseOnce_nil]
    exact ⟨rfl, hg⟩
  · intro x xs0 ih hg
    obtain ⟨run1, hrun1⟩ : ∃ r, (takeRun (parentOf x) xs0).1 = r := ⟨_, rfl⟩
    obtain ⟨rest, hrest⟩ : ∃ r, (takeRun (parentOf x) xs0).2 = r := ⟨_, rfl⟩
    rw [hrest] at ih
    have heq : x :: xs0 = (x :: run1) ++ rest := by
      have h := takeRun_eq (parentOf x) xs0
      rw [hrun1, hrest] at h
      rw [List.cons_append, h]
    have hco : collapseOnce u (x :: xs0) =
        collapseRun u (x :: run1) ++ collapseOnce u rest := by
      rw [collapseOnce_cons, hrun1, hrest]
    rw [heq] at hg
    obtain ⟨hchain, hpw, hval⟩ := hg
    have hpwlt : ((x :: run1) ++ rest).Pairwise (fun a b => pLt a b = true) :=
      pairwise_pLt_of_chain' hchain
    obtain ⟨hchainR, hchainRest, _⟩ := List.chain'_append.mp hchain
    obtain ⟨hpwR, hpwRest, hcross⟩ := List.pairwise_append.mp hpw
    obtain ⟨hpwltR, _, hltcross⟩ := List.pairwise_append.mp hpwlt
    have hvalR : ∀ q ∈ x :: run1, validP u q := fun q hq =>
      hval q (List.mem_append.mpr (Or.inl hq))
    have hvalRest : ∀ q ∈ rest, validP u q := fun q hq =>
      hval q (List.mem_append.mpr (Or.inr hq))
    have hdisj : ∀ q ∈ x :: run1, q ∉ rest := by
      intro q hq hqr
      have h := hltcross q hq q hqr
      rw [pLt_irrefl] at h
      exact absurd h (by simp)
    obtain ⟨ihExp, ihGood⟩ := ih ⟨hchainRest, hpwRest, hvalRest⟩
    have hOvalid : ∀ b ∈ collapseOnce u rest, validP u b := collapseOnce_valid hvalRest
    have hfront : ∀ a ∈ x :: run1,
        (∀ b ∈ collapseOnce u rest, nonNested a b) ∧
          (∀ z zs, collapseOnce u rest = z :: zs → pLt a z = true) := by
      intro a ha
      exact front_collapse (hvalR a ha) (fun b hb => hcross a ha b hb)
        (fun y ys hy => hltcross a ha y (by rw [hy]; simp))
    rcases collapseRun_cases u (x :: run1) with hcr | ⟨x', t', p, cs, hxt, hp, hcc, hsq, hcr⟩
    · rw [hco, hcr, heq]
      constructor
      · rw [expandAll_append, expandAll_append, ihExp]
      · unfold goodSeq
        refine ⟨?_, ?_, ?_⟩
        · refine List.chain'_append.mpr ⟨hchainR, ihGood.1, ?_⟩
          intro a ha b hb
          have haR : a ∈ x :: run1 := List.mem_of_mem_getLast? ha
          cases hcoRest : collapseOnce u rest with
          | nil =>
            rw [hcoRest] at hb
            simp at hb
          | cons z zs =>
            rw [hcoRest] at hb
            simp at hb
            subst hb
            exact (hfront a haR).2 z zs hcoRest
        · refine List.pairwise_append.mpr ⟨hpwR, ihGood.2.1, ?_⟩
          intro a ha b hb
          exact (hfront a ha).1 b hb
        · intro q hq
          rcases List.mem_append.mp hq with h | h
          · exact hvalR q h
          · exact hOvalid q h
    · injection hxt with h1 h2
      subst h1
      subst h2
      have hmem := setEq_mem hsq
      have hRcs : x :: run1 = cs :=
        sorted_mem_eq hpwltR (childrenOf_sorted hcc)
          (fun z => ⟨fun hz => hmem.1 z hz, fun hz => hmem.2 z hz⟩)
      have hcsne : cs ≠ [] := by
        rw [← hRcs]
        simp
      have hexpR : expandAll u (x :: run1) = leafExpansion u p := by
        rw [hRcs]
        exact expandAll_children hcc hcsne
      have hvp : validP u p := validP_of_childrenOf hcc
      have hNNp : ∀ b ∈ rest, nonNested p b := by
        intro b hb
        refine parent_nonNested hcc hcsne (hvalRest b hb) ?_
        intro w hw
        have hwR : w ∈ x :: run1 := by rw [hRcs]; exact hw
        refine ⟨?_, hcross w hwR b hb⟩
        intro he
        subst he
        exact hdisj _ hwR hb
      have hltp : ∀ y ys, rest = y :: ys → pLt p y = true := by
        intro y ys hy
        have hyr : y ∈ rest := by rw [hy]; simp
        rcases pLt_total p y with h | h | h
        · exact h
        · exfalso
          have hn := hNNp y hyr
          rw [← h] at hn
          exact hn.1 (List.prefix_refl p)
        · exfalso
          obtain ⟨k, hk⟩ := parentOf_some_shape hp
          have hpx : pLt p x = true := by
            rw [hk]
            exact pLt_extend p k []
          have hyx : pLt y x = true := pLt_trans h hpx
          have hxy : pLt x y = true := hltcross x (by simp) y hyr
          have ha := pLt_asymm hxy
          rw [hyx] at ha
          exact absurd ha (by simp)
      have hfrontp := front_collapse hvp hNNp hltp
      rw [hco, hcr, heq]
      have hsing : ([p] : List Path) ++ collapseOnce u rest = p :: collapseOnce u rest := rfl
      rw [hsing]
      constructor
      · have h1 : expandAll u (p :: collapseOnce u rest) =
            leafExpansion u p ++ expandAll u (collapseOnce u rest) := by
          unfold expandAll
          rw [List.flatMap_cons]
        rw [h1, ihExp, expandAll_append, hexpR]
      · unfold goodSeq
        refine ⟨?_, ?_, ?_⟩
        · refine List.chain'_cons'.mpr ⟨?_, ihGood.1⟩
          intro b hb
          cases hcoRest : collapseOnce u rest with
          | nil =>
            rw [hcoRest] at hb
            simp at hb
          | cons z zs =>
            rw [hcoRest] at hb
            simp at hb
            subst hb
            exact hfrontp.2 z zs hcoRest
        · exact List.pairwise_cons.mpr ⟨fun b hb => hfrontp.1 b hb, ihGood.2.1⟩
        · intro q hq
          rcases List.mem_cons.mp hq with rfl | h
          · exact hvp
          · exact hOvalid q h

/-- The fuelled simplify loop preserves the covered leaf sequence and the
well-formedness invariant, for any amount of fuel. -/
theorem simplifyFuel_good (u : Universe) : ∀ n xs, goodSeq u xs →
    expandAll u (simplifyFuel n u xs) = expandAll u xs ∧ goodSeq u (simplifyFuel n u xs) := by
  intro n
  induction n with
  | zero =>
    intro xs hg
    exact ⟨rfl, hg⟩
  | succ n ih =>
    intro xs hg
    have hunf : simplifyFuel (n + 1) u xs =
        if collapseOnce u xs = xs then xs else simplifyFuel n u (collapseOnce u xs) := rfl
    rw [hunf]
    by_cases h : collapseOnce u xs = xs
    · rw [if_pos h]
      exact ⟨rfl, hg⟩
    · rw [if_neg h]
      obtain ⟨he, hgood⟩ := collapseOnce_good u xs hg
      obtain ⟨he2, hg2⟩ := ih (collapseOnce u xs) hgood
      exact ⟨he2.trans he, hg2⟩

/-- C5: simplify preserves coverage — for every universe and every valid
ordered input sequence (strictly document-ordered, pairwise non-nested,
all handles valid: the shape `between` produces), the leaf-level
expansion of `simplify`'s result equals the leaf-level expansion of the
input, so collapsing never changes the covered leaf set. -/
theorem simplify_preserves_expansion (u : Universe) (xs : List Path)
    (hchain : List.Chain' (fun a b => pLt a b = true) xs)
    (hnn : xs.Pairwise nonNested) (hvalid : ∀ p ∈ xs, validP u p) :
    expandAll u (simplify u xs) = expandAll u xs :=
  (simplifyFuel_good u (sumLen xs + 1) xs ⟨hchain, hnn, hvalid⟩).1

/-- Witness for C5: on the flat example P(A,B,C), the full sibling
sequence [A,B,C] collapses to [P] yet covers the same leaves. -/
theorem simplify_preserves_expansion_witness :
    expandAll exFlat (simplify exFlat [[0, 0], [0, 1], [0, 2]]) =
      expandAll exFlat [[0, 0], [0, 1], [0, 2]] :=
  simplify_preserves_expansion exFlat [[0, 0], [0, 1], [0, 2]]
    (by simp [List.chain'_cons]; decide) (by decide) (by decide)

end Robin
